import Mathlib

/-!
ADXRS450 SPI gyro simulation wrapper.

A shallow embedding of `ADXRS450_SpiGyroWrapperData.cpp` (the simulated ADXRS450
gyro behind the SPI mock of the HAL) and theorems about it.

Modelling conventions.

* A `double` is a rational (`ℚ`). The definitions of the first part compute with exact
  rationals; the section on double arithmetic repeats the methods that compute with
  doubles (`Binary64.SetAngle`, `Binary64.HandleAutoReceiveData`) with every operation
  rounded to the nearest double (`roundDouble`), ties to even. Infinities, NaN and
  subnormal numbers are outside the model.
* An `int32_t` is an `Int`; every place where the source converts to, or
  computes in, 32 bits wraps explicitly (`toInt32`).  The bit operations act on
  the two's-complement bit pattern, a `Nat` below `2 ^ 32` (`toU32`).
* A `uint8_t*` buffer is the list of the bytes the caller owns behind the
  pointer; a write that would leave that list has no defined result (`none`).
* The mutexes are not modelled: every operation runs to completion.
* A callback is an opaque handle (`0` is `nullptr`); calling one is recorded as
  an `Invocation`, and the operations return the invocations they performed.
-/

namespace ADXRS450

/-! ## Machine integers and bytes -/

/-- Wraps an integer into the range of `int32_t`. -/
def toInt32 (z : Int) : Int := (z + 2 ^ 31) % 2 ^ 32 - 2 ^ 31

/-- The two's-complement bit pattern of an `int32_t`. -/
def toU32 (z : Int) : Nat := (z % 2 ^ 32).toNat

/-- Conversion `static_cast<int32_t>(x)` of a `double`: the fraction is
discarded (truncation toward zero), then the value is taken in 32 bits. -/
def castInt32 (x : ℚ) : Int := toInt32 (if 0 ≤ x then ⌊x⌋ else ⌈x⌉)

/-- Byte order of the host. -/
inductive ByteOrder where
  | little
  | big
  deriving DecidableEq

/-- The four bytes of a 32-bit pattern, most significant first. -/
def beBytes (w : Nat) : List Nat :=
  [w / 2 ^ 24 % 256, w / 2 ^ 16 % 256, w / 2 ^ 8 % 256, w % 256]

/-- The four bytes of a 32-bit pattern as they lie in the host's memory. -/
def hostBytes (host : ByteOrder) (w : Nat) : List Nat :=
  match host with
  | .big => beBytes w
  | .little => (beBytes w).reverse

/-- The 32-bit pattern whose bytes, most significant first, are `bs`. -/
def beWord (bs : List Nat) : Nat :=
  bs.foldl (fun acc b => acc * 256 + b) 0

/-- The 32-bit pattern that four bytes of host memory hold. -/
def hostWord (host : ByteOrder) (bs : List Nat) : Nat :=
  match host with
  | .big => beWord bs
  | .little => beWord bs.reverse

/-- Network-to-host conversion `ntohl`: the identity on a big-endian host, a
byte swap on a little-endian one. -/
def ntohl (host : ByteOrder) (w : Nat) : Nat :=
  match host with
  | .big => w % 2 ^ 32
  | .little => beWord (beBytes w).reverse

/-- The call `std::memcpy(&buffer[off], src, src.length)`. -/
def memcpy (buffer : List Nat) (off : Nat) (src : List Nat) : Option (List Nat) :=
  if off + src.length ≤ buffer.length then
    some (buffer.take off ++ src ++ buffer.drop (off + src.length))
  else none

/-- The call `std::memset(&buffer[0], c, n)`. -/
def memset (buffer : List Nat) (c : Nat) (n : Nat) : Option (List Nat) :=
  if n ≤ buffer.length then some (List.replicate n c ++ buffer.drop n) else none

/-! ## Constants -/

/-- Counts per degree, `1 / 0.0125 / 0.0005`. -/
def kAngleLsb : ℚ := 1 / (125 / 10000) / (5 / 10000)

/-- Largest angle change one message carries, `0.1875`. -/
def kMaxAngleDeltaPerMessage : ℚ := 1875 / 10000

/-- Bytes per message. -/
def kPacketSize : Int := 4

/-- The function template `clamp`. -/
def clamp (value low high : ℚ) : ℚ := max low (min value high)

/-! ## Callback registry -/

/-- One registered callback. -/
structure Subscription where
  uid : Int
  callback : Nat
  param : Nat
  deriving DecidableEq

/-- One call of a callback: the value passed, and the angle state the object
stores while the callback runs. -/
structure Invocation where
  callback : Nat
  param : Nat
  value : ℚ
  storedAngle : ℚ
  storedDiff : ℚ
  deriving DecidableEq

/-- Modelled from the spec: the helper `RegisterCallback` of
`MockData/NotifyCallbackHelpers.h`, which is not part of the sources at hand.
It appends the subscription under a fresh identifier, one more than the
largest identifier in use. -/
def RegisterCallback (cbs : List Subscription) (callback param : Nat) :
    List Subscription × Int :=
  let newUid : Int := (cbs.map Subscription.uid).foldr max 0 + 1
  (cbs ++ [{ uid := newUid, callback := callback, param := param }], newUid)

/-- Modelled from the spec: the helper `CancelCallback` of
`MockData/NotifyCallbackHelpers.h`; it removes the subscription with the
identifier given, and does nothing when there is none. -/
def CancelCallback (cbs : List Subscription) (uid : Int) : List Subscription :=
  cbs.filter (fun sub => sub.uid ≠ uid)

/-- Modelled from the spec: the helper `InvokeCallback` of
`MockData/NotifyCallbackHelpers.h`; it calls every registered callback, in
registration order, with the value. -/
def InvokeCallback (cbs : List Subscription) (value storedAngle storedDiff : ℚ) :
    List Invocation :=
  cbs.map (fun sub =>
    { callback := sub.callback, param := sub.param, value := value,
      storedAngle := storedAngle, storedDiff := storedDiff })

/-! ## The gyro object -/

/-- The data members of `ADXRS450_SpiGyroWrapper` (the port and the two
callback identifiers of the SPI mock apart). `m_angleCallbacks = nullptr` is
the empty list. -/
structure Gyro where
  m_angle : ℚ
  m_angleDiff : ℚ
  m_angleCallbacks : List Subscription
  deriving DecidableEq

/-- The method `ResetData`. -/
def ResetData (_s : Gyro) : Gyro :=
  { m_angle := 0, m_angleDiff := 0, m_angleCallbacks := [] }

/-- The method `HandleRead`: the status word is copied, in the host's byte order,
to the start of the buffer; `count` is not used. -/
def HandleRead (host : ByteOrder) (s : Gyro) (buffer : List Nat) (_count : Nat) :
    Option (Gyro × List Nat) :=
  let returnCode : Int := 0x00400AE0
  match memcpy buffer 0 (hostBytes host (toU32 returnCode)) with
  | none => none
  | some buffer1 => some (s, buffer1)

/-- The number `messagesToSend` that `HandleAutoReceiveData` computes first. The
functions `std::ceil` and `std::floor` give an integral `double`, `std::abs` its
magnitude, and the initialisation of the `int32_t` converts it. -/
def messagesToSend (s : Gyro) : Int :=
  toInt32 |if s.m_angleDiff > 0 then ⌈s.m_angleDiff / kMaxAngleDeltaPerMessage⌉
           else ⌊s.m_angleDiff / kMaxAngleDeltaPerMessage⌋|

/-- The word `valueToSend` before the byte-order conversion: the count is shifted
left by 10 in 32 bits, the bits of `0x0C00000E` are cleared and bit `0x04000000`
is set. -/
def packetWord (cappedDiff : ℚ) : Nat :=
  (((toU32 (castInt32 (cappedDiff * kAngleLsb)) <<< 10) % 2 ^ 32) &&& 0xF3FFFFF1)
    ||| 0x04000000

/-- The `while` loop of `HandleAutoReceiveData`. The first argument is the number
of iterations left, `valuesToRead - msgCtr`; the result is the buffer and
`m_angleDiff` when the loop ends. -/
def fillLoop (host : ByteOrder) : Nat → Nat → List Nat → ℚ → Option (List Nat × ℚ)
  | 0, _, buffer, angleDiff => some (buffer, angleDiff)
  | left + 1, msgCtr, buffer, angleDiff =>
    let cappedDiff := clamp angleDiff (-kMaxAngleDeltaPerMessage) kMaxAngleDeltaPerMessage
    let valueToSend := ntohl host (packetWord cappedDiff)
    match memcpy buffer (msgCtr * 4) (hostBytes host valueToSend) with
    | none => none
    | some buffer1 => fillLoop host left (msgCtr + 1) buffer1 (angleDiff - cappedDiff)

/-- What a call of `HandleAutoReceiveData` leaves behind. -/
structure AutoReceive where
  state : Gyro
  buffer : List Nat
  outputCount : Int
  deriving DecidableEq

/-- The method `HandleAutoReceiveData`. `outputCount` is the value the reference
parameter holds before the call. A negative `numToRead` becomes a `size_t` larger
than any buffer in `std::memset`, so it has no defined result. -/
def HandleAutoReceiveData (host : ByteOrder) (s : Gyro) (buffer : List Nat)
    (numToRead : Int) (outputCount : Int) : Option AutoReceive :=
  let messages := messagesToSend s
  if numToRead = 0 then
    some { state := s, buffer := buffer,
           outputCount := toInt32 (messages * kPacketSize) }
  else if numToRead < 0 then none
  else
    let valuesToRead := Int.tdiv numToRead kPacketSize
    match memset buffer 0 numToRead.toNat with
    | none => none
    | some buffer1 =>
      match fillLoop host valuesToRead.toNat 0 buffer1 s.m_angleDiff with
      | none => none
      | some (buffer2, angleDiff) =>
        some { state := { s with m_angleDiff := angleDiff }, buffer := buffer2,
               outputCount := outputCount }

/-- The method `GetAngle`. -/
def GetAngle (s : Gyro) : ℚ := s.m_angle

/-- The method `InvokeAngleCallback`. -/
def InvokeAngleCallback (s : Gyro) (value : ℚ) : List Invocation :=
  InvokeCallback s.m_angleCallbacks value s.m_angle s.m_angleDiff

/-- The method `SetAngle`: the state after the call and the callbacks called. -/
def SetAngle (s : Gyro) (angle : ℚ) : Gyro × List Invocation :=
  if s.m_angle ≠ angle then
    let calls := InvokeAngleCallback s angle
    ({ s with m_angleDiff := s.m_angleDiff + (angle - s.m_angle), m_angle := angle }, calls)
  else (s, [])

/-- The method `RegisterAngleCallback`: the state after the call, the identifier
returned and the callbacks called. -/
def RegisterAngleCallback (s : Gyro) (callback param : Nat) (initialNotify : Bool) :
    Gyro × Int × List Invocation :=
  if callback = 0 then (s, -1, [])
  else
    let (cbs, newUid) := RegisterCallback s.m_angleCallbacks callback param
    let s1 : Gyro := { s with m_angleCallbacks := cbs }
    if initialNotify then
      (s1, newUid,
        [{ callback := callback, param := param, value := GetAngle s1,
           storedAngle := s1.m_angle, storedDiff := s1.m_angleDiff }])
    else (s1, newUid, [])

/-- The method `CancelAngleCallback`. -/
def CancelAngleCallback (s : Gyro) (uid : Int) : Gyro :=
  { s with m_angleCallbacks := CancelCallback s.m_angleCallbacks uid }

/-! ## Traces of the fill loop and readers of the buffer -/

/-- The values `cappedDiff` takes in `left` successive iterations of the loop
that starts with `m_angleDiff = angleDiff`. -/
def steps : Nat → ℚ → List ℚ
  | 0, _ => []
  | left + 1, angleDiff =>
    clamp angleDiff (-kMaxAngleDeltaPerMessage) kMaxAngleDeltaPerMessage ::
      steps left
        (angleDiff - clamp angleDiff (-kMaxAngleDeltaPerMessage) kMaxAngleDeltaPerMessage)

/-- The value of `m_angleDiff` after `left` iterations of the loop. -/
def drain : Nat → ℚ → ℚ
  | 0, angleDiff => angleDiff
  | left + 1, angleDiff =>
    drain left
      (angleDiff - clamp angleDiff (-kMaxAngleDeltaPerMessage) kMaxAngleDeltaPerMessage)

/-- The first `n` 32-bit words of a buffer, each read most significant byte
first. -/
def packets : Nat → List Nat → List Nat
  | 0, _ => []
  | n + 1, buffer => beWord (buffer.take 4) :: packets n (buffer.drop 4)

/-- The ADXRS450 data field of a word: bits 10..25 read as a signed 16-bit
integer. -/
def packetCount (w : Nat) : Int :=
  if (w >>> 10) % 2 ^ 16 < 2 ^ 15 then ((w >>> 10) % 2 ^ 16 : Nat)
  else ((w >>> 10) % 2 ^ 16 : Nat) - 2 ^ 16

/-- The angle change, in degrees, that a word reports. -/
def decodeDelta (w : Nat) : ℚ := (packetCount w : ℚ) / kAngleLsb

/-- The bytes of a sequence of words on the wire, each word most significant
byte first. -/
def wireBytes : List Nat → List Nat
  | [] => []
  | w :: ws => beBytes w ++ wireBytes ws

/-- The sign of a rational, as a rational. -/
def sgn (d : ℚ) : ℚ := if 0 < d then 1 else if d < 0 then -1 else 0

/-- A rational with its fraction discarded (rounded toward zero). -/
def truncate (x : ℚ) : Int := if 0 ≤ x then ⌊x⌋ else ⌈x⌉

/-- The packet layout applied to a count: shifted left by 10 in 32 bits, the
bits of `0x0C00000E` cleared, bit `0x04000000` set. -/
def wordOfCount (raw : Int) : Nat :=
  (((toU32 raw <<< 10) % 2 ^ 32) &&& 0xF3FFFFF1) ||| 0x04000000

/-! ## Sequences of calls -/

/-- One call of a method of the object, with its arguments. -/
inductive Op where
  | statusRead (buffer : List Nat) (count : Nat)
  | autoReceive (buffer : List Nat) (numToRead outputCount : Int)
  | registerAngle (callback param : Nat) (initialNotify : Bool)
  | cancelAngle (uid : Int)
  | setAngle (angle : ℚ)
  | resetData

/-- The state of the object after one call. -/
def Op.apply (host : ByteOrder) (op : Op) (s : Gyro) : Option Gyro :=
  match op with
  | .statusRead buffer count => (HandleRead host s buffer count).map Prod.fst
  | .autoReceive buffer numToRead outputCount =>
    (HandleAutoReceiveData host s buffer numToRead outputCount).map AutoReceive.state
  | .registerAngle callback param initialNotify =>
    some (RegisterAngleCallback s callback param initialNotify).1
  | .cancelAngle uid => some (CancelAngleCallback s uid)
  | .setAngle angle => some (SetAngle s angle).1
  | .resetData => some (ResetData s)

/-- The state of the object after a sequence of calls, made one after the other. -/
def runOps (host : ByteOrder) : List Op → Gyro → Option Gyro
  | [], s => some s
  | op :: ops, s =>
    match op.apply host s with
    | none => none
    | some s1 => runOps host ops s1

/-- The caller's side of the contract of a call: the buffer holds the bytes the call writes
(4 for a status read, `numToRead` for an auto-receive read). -/
def Op.inBounds : Op → Prop
  | .statusRead buffer _ => 4 ≤ buffer.length
  | .autoReceive buffer numToRead _ => 0 ≤ numToRead ∧ numToRead ≤ buffer.length
  | _ => True

/-- Whether a call is `SetAngle` or `ResetData`, the two that assign `m_angle`. -/
def Op.assignsAngle : Op → Bool
  | .setAngle _ => true
  | .resetData => true
  | _ => false

/-- Whether a call is an auto-receive read in fill mode with room for a packet. -/
def Op.isFill : Op → Prop
  | .autoReceive buffer numToRead _ => 4 ≤ numToRead ∧ numToRead ≤ buffer.length
  | _ => False

/-- An object at angle 2 with pending delta 1 and three subscriptions. -/
def threeSubscribers : Gyro :=
  { m_angle := 2, m_angleDiff := 1,
    m_angleCallbacks := [{ uid := 1, callback := 7, param := 0 },
      { uid := 2, callback := 8, param := 0 }, { uid := 3, callback := 9, param := 4 }] }

/-! ## Double arithmetic

The definitions above compute with exact rationals. The definitions of this section are
the same methods with every operation on `double` values rounded as IEEE-754 binary64
arithmetic rounds it; they are the reference wherever rounding can change a result.
-/

/-- Rounding of a rational to the nearest integer, ties to the even one. -/
def roundEven (y : ℚ) : Int :=
  if y - ⌊y⌋ < 1 / 2 then ⌊y⌋
  else if 1 / 2 < y - ⌊y⌋ then ⌊y⌋ + 1
  else if ⌊y⌋ % 2 = 0 then ⌊y⌋ else ⌊y⌋ + 1

/-- The `double` nearest to a rational: rounding to nearest, ties to even, with a
significand of 53 bits. The exponent range is not modelled (no overflow to infinity, no
subnormal numbers). -/
def roundDouble (x : ℚ) : ℚ :=
  if x = 0 then 0
  else (roundEven (x / 2 ^ (Int.log 2 |x| - 52)) : ℚ) * 2 ^ (Int.log 2 |x| - 52)

/-- A rational that a `double` holds exactly: an integer of magnitude below `2 ^ 53` times a
power of two. -/
def isDouble (x : ℚ) : Prop := ∃ m t : Int, |m| < 2 ^ 53 ∧ x = m * 2 ^ t

/-- The number `messagesToSend` with the quotient rounded to a `double`. -/
def Binary64.messagesToSend (s : Gyro) : Int :=
  toInt32 |if s.m_angleDiff > 0
    then ⌈roundDouble (s.m_angleDiff / kMaxAngleDeltaPerMessage)⌉
    else ⌊roundDouble (s.m_angleDiff / kMaxAngleDeltaPerMessage)⌋|

/-- The word `valueToSend` before the byte-order conversion, with the product
`cappedDiff * kAngleLsb` rounded to a `double` before the conversion to `int32_t`. -/
def Binary64.packetWord (cappedDiff : ℚ) : Nat :=
  (((toU32 (castInt32 (roundDouble (cappedDiff * kAngleLsb))) <<< 10) % 2 ^ 32)
    &&& 0xF3FFFFF1) ||| 0x04000000

/-- The `while` loop of `HandleAutoReceiveData` in double arithmetic: the product in the
packet and the difference `m_angleDiff - cappedDiff` are rounded. -/
def Binary64.fillLoop (host : ByteOrder) :
    Nat → Nat → List Nat → ℚ → Option (List Nat × ℚ)
  | 0, _, buffer, angleDiff => some (buffer, angleDiff)
  | left + 1, msgCtr, buffer, angleDiff =>
    let cappedDiff := clamp angleDiff (-kMaxAngleDeltaPerMessage) kMaxAngleDeltaPerMessage
    let valueToSend := ntohl host (Binary64.packetWord cappedDiff)
    match memcpy buffer (msgCtr * 4) (hostBytes host valueToSend) with
    | none => none
    | some buffer1 =>
      Binary64.fillLoop host left (msgCtr + 1) buffer1 (roundDouble (angleDiff - cappedDiff))

/-- The method `HandleAutoReceiveData` in double arithmetic. -/
def Binary64.HandleAutoReceiveData (host : ByteOrder) (s : Gyro) (buffer : List Nat)
    (numToRead : Int) (outputCount : Int) : Option AutoReceive :=
  let messages := Binary64.messagesToSend s
  if numToRead = 0 then
    some { state := s, buffer := buffer,
           outputCount := toInt32 (messages * kPacketSize) }
  else if numToRead < 0 then none
  else
    let valuesToRead := Int.tdiv numToRead kPacketSize
    match memset buffer 0 numToRead.toNat with
    | none => none
    | some buffer1 =>
      match Binary64.fillLoop host valuesToRead.toNat 0 buffer1 s.m_angleDiff with
      | none => none
      | some (buffer2, angleDiff) =>
        some { state := { s with m_angleDiff := angleDiff }, buffer := buffer2,
               outputCount := outputCount }

/-- The method `SetAngle` in double arithmetic: the difference `angle - m_angle` and the sum
added to `m_angleDiff` are rounded. -/
def Binary64.SetAngle (s : Gyro) (angle : ℚ) : Gyro × List Invocation :=
  if s.m_angle ≠ angle then
    let calls := InvokeAngleCallback s angle
    ({ s with m_angleDiff := roundDouble (s.m_angleDiff + roundDouble (angle - s.m_angle)),
              m_angle := angle }, calls)
  else (s, [])

/-- The values `cappedDiff` takes in `left` successive iterations of the loop in double
arithmetic. -/
def Binary64.steps : Nat → ℚ → List ℚ
  | 0, _ => []
  | left + 1, angleDiff =>
    clamp angleDiff (-kMaxAngleDeltaPerMessage) kMaxAngleDeltaPerMessage ::
      Binary64.steps left (roundDouble
        (angleDiff - clamp angleDiff (-kMaxAngleDeltaPerMessage) kMaxAngleDeltaPerMessage))

/-- The value of `m_angleDiff` after `left` iterations of the loop in double arithmetic. -/
def Binary64.drain : Nat → ℚ → ℚ
  | 0, angleDiff => angleDiff
  | left + 1, angleDiff =>
    Binary64.drain left (roundDouble
      (angleDiff - clamp angleDiff (-kMaxAngleDeltaPerMessage) kMaxAngleDeltaPerMessage))

/-- The state of the object after one call, in double arithmetic. -/
def Binary64.apply (host : ByteOrder) (op : Op) (s : Gyro) : Option Gyro :=
  match op with
  | .statusRead buffer count => (HandleRead host s buffer count).map Prod.fst
  | .autoReceive buffer numToRead outputCount =>
    (Binary64.HandleAutoReceiveData host s buffer numToRead outputCount).map
      AutoReceive.state
  | .registerAngle callback param initialNotify =>
    some (RegisterAngleCallback s callback param initialNotify).1
  | .cancelAngle uid => some (CancelAngleCallback s uid)
  | .setAngle angle => some (Binary64.SetAngle s angle).1
  | .resetData => some (ResetData s)

/-- The state of the object after a sequence of calls, in double arithmetic. -/
def Binary64.runOps (host : ByteOrder) : List Op → Gyro → Option Gyro
  | [], s => some s
  | op :: ops, s =>
    match Binary64.apply host op s with
    | none => none
    | some s1 => Binary64.runOps host ops s1

/-! ## Basic facts -/

theorem kAngleLsb_eq : kAngleLsb = 160000 := by norm_num [kAngleLsb]

theorem kMax_eq : kMaxAngleDeltaPerMessage = 3 / 16 := by
  norm_num [kMaxAngleDeltaPerMessage]

theorem toInt32_of_range {z : Int} (h1 : -2 ^ 31 ≤ z) (h2 : z < 2 ^ 31) : toInt32 z = z := by
  unfold toInt32
  omega

theorem beWord_beBytes (w : Nat) : beWord (beBytes w) = w % 2 ^ 32 := by
  simp only [beWord, beBytes, List.foldl]
  omega

theorem hostBytes_ntohl (host : ByteOrder) (w : Nat) :
    hostBytes host (ntohl host w) = beBytes w := by
  cases host
  · have h0 : w % 256 < 256 := Nat.mod_lt _ (by decide)
    have h1 : w / 2 ^ 8 % 256 < 256 := Nat.mod_lt _ (by decide)
    have h2 : w / 2 ^ 16 % 256 < 256 := Nat.mod_lt _ (by decide)
    have h3 : w / 2 ^ 24 % 256 < 256 := Nat.mod_lt _ (by decide)
    simp only [hostBytes, ntohl, beBytes, beWord, List.reverse_cons, List.reverse_nil,
      List.nil_append, List.cons_append, List.foldl, List.cons.injEq, and_true]
    generalize w % 256 = b0 at h0 ⊢
    generalize w / 2 ^ 8 % 256 = b1 at h1 ⊢
    generalize w / 2 ^ 16 % 256 = b2 at h2 ⊢
    generalize w / 2 ^ 24 % 256 = b3 at h3 ⊢
    refine ⟨?_, ?_, ?_, ?_⟩ <;> omega
  · simp only [hostBytes, ntohl, beBytes, List.cons.injEq, and_true]
    refine ⟨?_, ?_, ?_, ?_⟩ <;> omega

theorem hostWord_hostBytes (host : ByteOrder) (w : Nat) :
    hostWord host (hostBytes host w) = w % 2 ^ 32 := by
  cases host
  · simp only [hostWord, hostBytes, List.reverse_reverse, beWord_beBytes]
  · simp only [hostWord, hostBytes, beWord_beBytes]

theorem beBytes_length (w : Nat) : (beBytes w).length = 4 := rfl

theorem hostBytes_length (host : ByteOrder) (w : Nat) : (hostBytes host w).length = 4 := by
  cases host <;> rfl

theorem memcpy_append (pre old post new : List Nat) (h : old.length = new.length) :
    memcpy (pre ++ old ++ post) pre.length new = some (pre ++ new ++ post) := by
  unfold memcpy
  have h1 : pre.length + new.length ≤ (pre ++ old ++ post).length := by
    simp only [List.length_append]
    omega
  rw [if_pos h1]
  have h2 : List.take pre.length (pre ++ old ++ post) = pre := by
    rw [List.append_assoc, List.take_left]
  have h3 : List.drop (pre.length + new.length) (pre ++ old ++ post) = post := by
    have : pre.length + new.length = (pre ++ old).length := by
      simp only [List.length_append]
      omega
    rw [this, List.drop_left]
  rw [h2, h3]

theorem wireBytes_length (ws : List Nat) : (wireBytes ws).length = 4 * ws.length := by
  induction ws with
  | nil => rfl
  | cons w ws ih =>
    simp only [wireBytes, List.length_append, beBytes_length, ih, List.length_cons]
    omega

theorem steps_length (k : Nat) (d : ℚ) : (steps k d).length = k := by
  induction k generalizing d with
  | zero => rfl
  | succ k ih => simp only [steps, List.length_cons, ih]

theorem fillLoop_spec (host : ByteOrder) (k : Nat) :
    ∀ (msgCtr : Nat) (pre mid post : List Nat) (d : ℚ),
      pre.length = msgCtr * 4 → mid.length = 4 * k →
      fillLoop host k msgCtr (pre ++ mid ++ post) d =
        some (pre ++ wireBytes ((steps k d).map packetWord) ++ post, drain k d) := by
  induction k with
  | zero =>
    intro msgCtr pre mid post d _ hmid
    have : mid = [] := List.length_eq_zero.mp (by omega)
    subst this
    simp only [fillLoop, steps, drain, List.map_nil, wireBytes]
  | succ k ih =>
    intro msgCtr pre mid post d hpre hmid
    have hsplit : pre ++ mid ++ post = pre ++ mid.take 4 ++ (mid.drop 4 ++ post) := by
      rw [List.append_assoc pre (mid.take 4), ← List.append_assoc (mid.take 4),
        List.take_append_drop, List.append_assoc]
    have htake : (mid.take 4).length = 4 := by
      rw [List.length_take]
      omega
    have hdrop : (mid.drop 4).length = 4 * k := by
      rw [List.length_drop]
      omega
    simp only [fillLoop, hostBytes_ntohl, steps, drain, List.map_cons, wireBytes]
    rw [hsplit, ← hpre, memcpy_append pre (mid.take 4) _ _ (by rw [htake, beBytes_length])]
    simp only []
    have hpre1 : (pre ++ beBytes (packetWord (clamp d (-kMaxAngleDeltaPerMessage)
        kMaxAngleDeltaPerMessage))).length = (msgCtr + 1) * 4 := by
      rw [List.length_append, beBytes_length, hpre]
      omega
    rw [← List.append_assoc, ih (msgCtr + 1) _ (mid.drop 4) post _ hpre1 hdrop]
    simp only [List.append_assoc]

theorem preflight_spec (host : ByteOrder) (s : Gyro) (buffer : List Nat) (outputCount : Int) :
    HandleAutoReceiveData host s buffer 0 outputCount =
      some { state := s, buffer := buffer,
             outputCount := toInt32 (messagesToSend s * kPacketSize) } := by
  simp only [HandleAutoReceiveData, if_true]

theorem fill_spec (host : ByteOrder) (s : Gyro) (buffer : List Nat) (numToRead outputCount : Int)
    (hpos : 0 < numToRead) (hlen : numToRead ≤ buffer.length) :
    HandleAutoReceiveData host s buffer numToRead outputCount =
      some { state := { s with m_angleDiff := drain (numToRead / 4).toNat s.m_angleDiff },
             buffer := wireBytes ((steps (numToRead / 4).toNat s.m_angleDiff).map packetWord) ++
               List.replicate (numToRead.toNat % 4) 0 ++ buffer.drop numToRead.toNat,
             outputCount := outputCount } := by
  have h0 : ¬ numToRead = 0 := by omega
  have h1 : ¬ numToRead < 0 := by omega
  have h2 : numToRead.toNat ≤ buffer.length := by omega
  have h3 : Int.tdiv numToRead kPacketSize = numToRead / 4 :=
    Int.tdiv_eq_ediv (by omega) (by decide)
  have h4 : numToRead.toNat = 4 * (numToRead / 4).toNat + numToRead.toNat % 4 := by omega
  have h5 : List.replicate numToRead.toNat 0 ++ buffer.drop numToRead.toNat =
      [] ++ List.replicate (4 * (numToRead / 4).toNat) 0 ++
        (List.replicate (numToRead.toNat % 4) 0 ++ buffer.drop numToRead.toNat) := by
    rw [List.nil_append, ← List.append_assoc, ← List.replicate_add, ← h4]
  simp only [HandleAutoReceiveData, if_neg h0, if_neg h1, memset, if_pos h2, h3]
  rw [h5, fillLoop_spec host _ 0 [] _ _ _ rfl (List.length_replicate _ _)]
  simp only [List.nil_append, List.append_assoc]

/-! ## Arithmetic of the loop -/

theorem clamp_eq (d : ℚ) :
    clamp d (-kMaxAngleDeltaPerMessage) kMaxAngleDeltaPerMessage =
      if 3 / 16 < d then 3 / 16 else if d < -(3 / 16) then -(3 / 16) else d := by
  rw [kMax_eq]
  unfold clamp
  simp only [max_def, min_def]
  split_ifs <;> linarith

theorem clamp_neg (d : ℚ) :
    clamp (-d) (-kMaxAngleDeltaPerMessage) kMaxAngleDeltaPerMessage =
      -clamp d (-kMaxAngleDeltaPerMessage) kMaxAngleDeltaPerMessage := by
  rw [clamp_eq, clamp_eq]
  split_ifs <;> linarith

theorem abs_clamp_le (d : ℚ) :
    |clamp d (-kMaxAngleDeltaPerMessage) kMaxAngleDeltaPerMessage| ≤ 3 / 16 := by
  rw [clamp_eq, abs_le]
  split_ifs <;> constructor <;> linarith

theorem drain_neg (k : Nat) (d : ℚ) : drain k (-d) = -drain k d := by
  induction k generalizing d with
  | zero => rfl
  | succ k ih =>
    simp only [drain, clamp_neg]
    rw [← ih]
    congr 1
    ring

theorem drain_of_nonneg (k : Nat) (d : ℚ) (hd : 0 ≤ d) :
    drain k d = max (d - k * (3 / 16)) 0 := by
  induction k generalizing d with
  | zero => simp only [drain, Nat.cast_zero, zero_mul, sub_zero, max_eq_left hd]
  | succ k ih =>
    simp only [drain, clamp_eq]
    have h1 : ¬ d < -(3 / 16) := by linarith
    rw [if_neg h1]
    by_cases h : 3 / 16 < d
    · rw [if_pos h, ih _ (by linarith)]
      push_cast
      congr 1
      ring
    · rw [if_neg h, sub_self, ih _ le_rfl]
      push_cast
      rw [max_eq_right (by linarith [Nat.cast_nonneg (α := ℚ) k]),
        max_eq_right (by linarith [Nat.cast_nonneg (α := ℚ) k])]

theorem sgn_mul_abs (d : ℚ) : sgn d * |d| = d := by
  unfold sgn
  split_ifs with h1 h2
  · rw [abs_of_pos h1, one_mul]
  · rw [abs_of_neg h2]
    ring
  · have : d = 0 := le_antisymm (not_lt.mp h1) (not_lt.mp h2)
    rw [this, abs_zero, mul_zero]

theorem drain_closed (k : Nat) (d : ℚ) :
    drain k d = sgn d * max (|d| - k * (3 / 16)) 0 := by
  rcases le_or_lt 0 d with hd | hd
  · rw [drain_of_nonneg k d hd, abs_of_nonneg hd]
    rcases hd.lt_or_eq with h | h
    · simp only [sgn, if_pos h, one_mul]
    · subst h
      have : max ((0 : ℚ) - k * (3 / 16)) 0 = 0 :=
        max_eq_right (by linarith [Nat.cast_nonneg (α := ℚ) k])
      rw [this, mul_zero]
  · have h := drain_neg k (-d)
    rw [neg_neg] at h
    rw [h, drain_of_nonneg k (-d) (by linarith), abs_of_neg hd]
    simp only [sgn, if_neg (not_lt.mpr hd.le), if_pos hd]
    ring

theorem steps_sum (k : Nat) (d : ℚ) : (steps k d).sum = d - drain k d := by
  induction k generalizing d with
  | zero => simp only [steps, drain, List.sum_nil, sub_self]
  | succ k ih =>
    simp only [steps, drain, List.sum_cons, ih]
    ring

theorem steps_bound (k : Nat) (d : ℚ) : ∀ step ∈ steps k d, |step| ≤ 3 / 16 := by
  induction k generalizing d with
  | zero =>
    intro step h
    simp only [steps, List.not_mem_nil] at h
  | succ k ih =>
    intro step h
    simp only [steps, List.mem_cons] at h
    rcases h with h | h
    · rw [h]
      exact abs_clamp_le d
    · exact ih _ step h

theorem steps_add (a b : Nat) (d : ℚ) :
    steps (a + b) d = steps a d ++ steps b (drain a d) := by
  induction a generalizing d with
  | zero => simp only [Nat.zero_add, steps, drain, List.nil_append]
  | succ a ih =>
    rw [Nat.add_right_comm]
    simp only [steps, drain, List.cons_append, ih]

theorem drain_add (a b : Nat) (d : ℚ) : drain (a + b) d = drain b (drain a d) := by
  induction a generalizing d with
  | zero => simp only [Nat.zero_add, drain]
  | succ a ih =>
    rw [Nat.add_right_comm]
    simp only [drain, ih]

theorem steps_full (q : Nat) (d : ℚ) (h : q * (3 / 16) ≤ d) :
    steps q d = List.replicate q (3 / 16) := by
  induction q generalizing d with
  | zero => rfl
  | succ q ih =>
    have hq : (0 : ℚ) ≤ q := Nat.cast_nonneg q
    push_cast at h
    have h1 : clamp d (-kMaxAngleDeltaPerMessage) kMaxAngleDeltaPerMessage = 3 / 16 := by
      rw [clamp_eq]
      split_ifs <;> linarith
    simp only [steps, h1, List.replicate_succ]
    rw [ih _ (by linarith)]

theorem steps_last (r : ℚ) (h0 : 0 ≤ r) (h1 : r < 3 / 16) : steps 1 r = [r] := by
  have h : clamp r (-kMaxAngleDeltaPerMessage) kMaxAngleDeltaPerMessage = r := by
    rw [clamp_eq]
    split_ifs <;> linarith
  simp only [steps, h]

/-! ## The packet layout -/

theorem wordOfCount_lt (raw : Int) : wordOfCount raw < 2 ^ 32 :=
  Nat.or_lt_two_pow (Nat.and_lt_two_pow _ (by decide)) (by decide)

theorem field_of_layout (p : Nat) :
    (((((p <<< 10) % 2 ^ 32) &&& 0xF3FFFFF1) ||| 0x04000000) >>> 10) % 2 ^ 16 = p % 2 ^ 16 := by
  apply Nat.eq_of_testBit_eq
  intro i
  simp only [Nat.testBit_mod_two_pow, Nat.testBit_shiftRight, Nat.testBit_or, Nat.testBit_and,
    Nat.testBit_shiftLeft]
  by_cases h : i < 16
  · interval_cases i <;> simp [Nat.testBit, Nat.shiftRight_eq_div_pow]
  · simp [h]

theorem packetCount_wordOfCount (raw : Int) (h1 : -2 ^ 15 ≤ raw) (h2 : raw < 2 ^ 15) :
    packetCount (wordOfCount raw) = raw := by
  unfold packetCount wordOfCount
  rw [field_of_layout]
  unfold toU32
  split_ifs <;> omega

theorem truncate_bounds (step : ℚ) (h : |step| ≤ 3 / 16) :
    -30000 ≤ truncate (step * kAngleLsb) ∧ truncate (step * kAngleLsb) ≤ 30000 := by
  rw [kAngleLsb_eq]
  rw [abs_le] at h
  unfold truncate
  split_ifs with hx
  · constructor
    · have : (0 : Int) ≤ ⌊step * 160000⌋ := Int.floor_nonneg.mpr hx
      omega
    · have h3 : ((⌊step * 160000⌋ : Int) : ℚ) ≤ 30000 :=
        le_trans (Int.floor_le _) (by linarith)
      exact_mod_cast h3
  · constructor
    · have h3 : ((-30000 : Int) : ℚ) ≤ (⌈step * 160000⌉ : Int) :=
        le_trans (by push_cast; linarith) (Int.le_ceil _)
      exact_mod_cast h3
    · have : ⌈step * 160000⌉ ≤ 0 := Int.ceil_le.mpr (by push_cast; linarith)
      omega

theorem packetWord_eq (step : ℚ) (h : |step| ≤ 3 / 16) :
    packetWord step = wordOfCount (truncate (step * kAngleLsb)) := by
  have hb := truncate_bounds step h
  unfold packetWord wordOfCount castInt32
  rw [show (if 0 ≤ step * kAngleLsb then ⌊step * kAngleLsb⌋ else ⌈step * kAngleLsb⌉) =
    truncate (step * kAngleLsb) from rfl, toInt32_of_range (by omega) (by omega)]

theorem packets_wireBytes (ws rest : List Nat) (h : ∀ w ∈ ws, w < 2 ^ 32) :
    packets ws.length (wireBytes ws ++ rest) = ws := by
  induction ws with
  | nil => rfl
  | cons w ws ih =>
    have h1 : List.take 4 (wireBytes (w :: ws) ++ rest) = beBytes w := rfl
    have h2 : List.drop 4 (wireBytes (w :: ws) ++ rest) = wireBytes ws ++ rest := rfl
    simp only [List.length_cons, packets, h1, h2, beWord_beBytes]
    rw [ih (fun x hx => h x (List.mem_cons_of_mem _ hx)),
      Nat.mod_eq_of_lt (h w (List.mem_cons_self _ _))]

theorem branch_eq_ceil (d : ℚ) :
    |if d > 0 then ⌈d / kMaxAngleDeltaPerMessage⌉ else ⌊d / kMaxAngleDeltaPerMessage⌋| =
      ⌈|d| / (3 / 16)⌉ := by
  rw [kMax_eq]
  split_ifs with h
  · rw [abs_of_pos h, abs_of_nonneg (Int.ceil_nonneg (by positivity))]
  · have hd : d ≤ 0 := not_lt.mp h
    have h1 : ⌊d / (3 / 16)⌋ ≤ 0 := by
      have h2 : d / (3 / 16) ≤ 0 := div_nonpos_of_nonpos_of_nonneg hd (by norm_num)
      have h3 : ((⌊d / (3 / 16)⌋ : Int) : ℚ) ≤ 0 := le_trans (Int.floor_le _) h2
      exact_mod_cast h3
    rw [abs_of_nonpos h1, abs_of_nonpos hd, neg_div, Int.ceil_neg]

theorem messagesToSend_eq (s : Gyro) :
    messagesToSend s = toInt32 ⌈|s.m_angleDiff| / (3 / 16)⌉ := by
  unfold messagesToSend
  rw [branch_eq_ceil]

theorem ceil_abs_nonneg (d : ℚ) : 0 ≤ ⌈|d| / (3 / 16)⌉ :=
  Int.ceil_nonneg (div_nonneg (abs_nonneg d) (by norm_num))

theorem preflight_in_range (host : ByteOrder) (s : Gyro) (buffer : List Nat) (outputCount : Int)
    (h : ⌈|s.m_angleDiff| / (3 / 16)⌉ < 2 ^ 29) :
    HandleAutoReceiveData host s buffer 0 outputCount =
      some { state := s, buffer := buffer,
             outputCount := 4 * ⌈|s.m_angleDiff| / (3 / 16)⌉ } := by
  have h0 := ceil_abs_nonneg s.m_angleDiff
  have h1 : toInt32 ⌈|s.m_angleDiff| / (3 / 16)⌉ = ⌈|s.m_angleDiff| / (3 / 16)⌉ :=
    toInt32_of_range (by omega) (by omega)
  rw [preflight_spec, messagesToSend_eq, h1]
  unfold kPacketSize
  rw [toInt32_of_range (by omega) (by omega), mul_comm]

/-- C1 (as amended): the sign-branching count of the source,
`abs(d > 0 ? ceil(d / 0.1875) : floor(d / 0.1875))`, equals `ceil(|d| / 0.1875)` for every
pending delta `d`; and whenever that count is below `2 ^ 29`, so that four times it fits
`int32_t`, the pre-flight query (`numToRead == 0`) sets `outputCount` to
`4 * ceil(|d| / 0.1875)` and changes nothing else. -/
theorem preflight_outputCount (host : ByteOrder) (s : Gyro) (buffer : List Nat)
    (outputCount : Int) :
    |if s.m_angleDiff > 0 then ⌈s.m_angleDiff / kMaxAngleDeltaPerMessage⌉
      else ⌊s.m_angleDiff / kMaxAngleDeltaPerMessage⌋| = ⌈|s.m_angleDiff| / (3 / 16)⌉ ∧
    (⌈|s.m_angleDiff| / (3 / 16)⌉ < 2 ^ 29 →
      HandleAutoReceiveData host s buffer 0 outputCount =
        some { state := s, buffer := buffer,
               outputCount := 4 * ⌈|s.m_angleDiff| / (3 / 16)⌉ }) :=
  ⟨branch_eq_ceil s.m_angleDiff, preflight_in_range host s buffer outputCount⟩

theorem ceil_one : ⌈|(1 : ℚ)| / (3 / 16)⌉ = 6 := by
  rw [Int.ceil_eq_iff]
  norm_num

/-- Witness of C1: a pending delta of `1.0` needs 6 messages, `outputCount = 24`. -/
theorem preflight_outputCount_witness :
    ⌈|(1 : ℚ)| / (3 / 16)⌉ < 2 ^ 29 ∧
    HandleAutoReceiveData ByteOrder.little
        { m_angle := 1, m_angleDiff := 1, m_angleCallbacks := [] } [] 0 0 =
      some { state := { m_angle := 1, m_angleDiff := 1, m_angleCallbacks := [] },
             buffer := [], outputCount := 24 } := by
  have h : ⌈|(1 : ℚ)| / (3 / 16)⌉ < 2 ^ 29 := by
    rw [ceil_one]
    decide
  refine ⟨h, ?_⟩
  have key := (preflight_outputCount ByteOrder.little
    { m_angle := 1, m_angleDiff := 1, m_angleCallbacks := [] } [] 0).2 h
  rw [ceil_one] at key
  exact key

theorem ceil_large : ⌈|(100663296 : ℚ)| / (3 / 16)⌉ = 536870912 := by
  rw [Int.ceil_eq_iff]
  norm_num

/-- Counterexample to C1 as stated: with a pending delta of `100663296` degrees the count is
`2 ^ 29` messages, and `outputCount`, an `int32_t`, holds `-2147483648` and not
`4 * 2 ^ 29 = 2147483648`. -/
theorem outputCount_wraps :
    ∃ r, HandleAutoReceiveData ByteOrder.little
        { m_angle := 0, m_angleDiff := 100663296, m_angleCallbacks := [] } [] 0 0 = some r ∧
      r.outputCount = -2147483648 ∧
      r.outputCount ≠ 4 * ⌈|(100663296 : ℚ)| / (3 / 16)⌉ := by
  refine ⟨_, preflight_spec _ _ _ _, ?_, ?_⟩
  · simp only [messagesToSend_eq, ceil_large]
    decide
  · simp only [messagesToSend_eq, ceil_large]
    decide

/-! ## Draining what the pre-flight query announced -/

theorem abs_drain (k : Nat) (d : ℚ) : |drain k d| = max (|d| - k * (3 / 16)) 0 := by
  rcases le_or_lt 0 d with hd | hd
  · rw [drain_of_nonneg k d hd, abs_of_nonneg hd, abs_of_nonneg (le_max_right _ _)]
  · have h := drain_neg k (-d)
    rw [neg_neg] at h
    rw [h, abs_neg, drain_of_nonneg k (-d) (by linarith), abs_of_neg hd,
      abs_of_nonneg (le_max_right _ _)]

theorem drain_eq_zero_iff (k : Nat) (d : ℚ) : drain k d = 0 ↔ |d| ≤ k * (3 / 16) := by
  rw [← abs_eq_zero, abs_drain]
  constructor
  · intro h
    have := le_max_left (|d| - k * (3 / 16)) 0
    linarith
  · intro h
    exact max_eq_right (by linarith)

theorem abs_le_ceil_mul (d : ℚ) : |d| ≤ (⌈|d| / (3 / 16)⌉ : ℚ) * (3 / 16) := by
  have h := Int.le_ceil (|d| / (3 / 16))
  rw [div_le_iff₀ (by norm_num)] at h
  exact h

theorem lt_ceil_mul (d : ℚ) (k : Int) (h : k < ⌈|d| / (3 / 16)⌉) : (k : ℚ) * (3 / 16) < |d| := by
  have h1 := Int.lt_ceil.mp h
  rwa [lt_div_iff₀ (by norm_num)] at h1

theorem fill_all (host : ByteOrder) (s : Gyro) (buffer : List Nat) (outputCount : Int)
    (hlen : 4 * ⌈|s.m_angleDiff| / (3 / 16)⌉ ≤ buffer.length) :
    ∃ r, HandleAutoReceiveData host s buffer (4 * ⌈|s.m_angleDiff| / (3 / 16)⌉) outputCount =
        some r ∧ r.state.m_angleDiff = 0 := by
  have h0 := ceil_abs_nonneg s.m_angleDiff
  rcases h0.lt_or_eq with hc | hc
  · refine ⟨_, fill_spec host s buffer _ outputCount (by omega) hlen, ?_⟩
    simp only []
    rw [drain_eq_zero_iff]
    have h1 : ((4 * ⌈|s.m_angleDiff| / (3 / 16)⌉ / 4).toNat : ℚ) =
        (⌈|s.m_angleDiff| / (3 / 16)⌉ : ℚ) := by
      have : ((4 * ⌈|s.m_angleDiff| / (3 / 16)⌉ / 4).toNat : Int) =
          ⌈|s.m_angleDiff| / (3 / 16)⌉ := by omega
      exact_mod_cast this
    rw [h1]
    exact abs_le_ceil_mul _
  · have hd : s.m_angleDiff = 0 := by
      have h1 := abs_le_ceil_mul s.m_angleDiff
      rw [← hc] at h1
      simp only [Int.cast_zero, zero_mul] at h1
      exact abs_eq_zero.mp (le_antisymm h1 (abs_nonneg _))
    refine ⟨_, by rw [← hc]; exact preflight_spec host s buffer outputCount, hd⟩

theorem fill_short (host : ByteOrder) (s : Gyro) (buffer : List Nat) (m outputCount : Int)
    (hm : 0 ≤ m) (hlen : m ≤ buffer.length) (hlt : m / 4 < ⌈|s.m_angleDiff| / (3 / 16)⌉) :
    ∃ r, HandleAutoReceiveData host s buffer m outputCount = some r ∧
      r.state.m_angleDiff ≠ 0 := by
  rcases hm.lt_or_eq with hpos | hz
  · refine ⟨_, fill_spec host s buffer m outputCount hpos hlen, ?_⟩
    simp only []
    rw [Ne, drain_eq_zero_iff, not_le]
    have h1 : (((m / 4).toNat : Nat) : ℚ) = ((m / 4 : Int) : ℚ) := by
      have : (((m / 4).toNat : Nat) : Int) = m / 4 := by omega
      exact_mod_cast this
    rw [h1]
    exact lt_ceil_mul _ _ hlt
  · subst hz
    refine ⟨_, preflight_spec host s buffer outputCount, ?_⟩
    simp only []
    intro hd
    rw [hd] at hlt
    simp at hlt

/-- C2 (as amended): for every pending delta `d` whose message count `ceil(|d| / 0.1875)` is
below `2 ^ 29`, the pre-flight query returns a count `n >= 0`; a call with `numToRead = n` on
a buffer of at least `n` bytes leaves `pendingDelta == 0`; and every call whose `numToRead`
gives fewer than `n / 4` slots leaves `pendingDelta != 0`. -/
theorem preflight_length_sufficient (host : ByteOrder) (s : Gyro)
    (hrange : ⌈|s.m_angleDiff| / (3 / 16)⌉ < 2 ^ 29) :
    ∃ n : Int, 0 ≤ n ∧
      (∀ (buffer : List Nat) (outputCount : Int),
        ∃ r, HandleAutoReceiveData host s buffer 0 outputCount = some r ∧ r.outputCount = n) ∧
      (∀ (buffer : List Nat) (outputCount : Int), n ≤ buffer.length →
        ∃ r, HandleAutoReceiveData host s buffer n outputCount = some r ∧
          r.state.m_angleDiff = 0) ∧
      (∀ (buffer : List Nat) (m outputCount : Int), 0 ≤ m → m ≤ buffer.length →
        m / 4 < n / 4 →
        ∃ r, HandleAutoReceiveData host s buffer m outputCount = some r ∧
          r.state.m_angleDiff ≠ 0) := by
  have h0 := ceil_abs_nonneg s.m_angleDiff
  refine ⟨4 * ⌈|s.m_angleDiff| / (3 / 16)⌉, by omega, ?_, ?_, ?_⟩
  · intro buffer outputCount
    exact ⟨_, preflight_in_range host s buffer outputCount hrange, rfl⟩
  · intro buffer outputCount hlen
    exact fill_all host s buffer outputCount hlen
  · intro buffer m outputCount hm hlen hlt
    exact fill_short host s buffer m outputCount hm hlen (by omega)

/-- Witness of C2: the pending delta `1.0` is in range. -/
theorem preflight_length_sufficient_witness :
    ⌈|(1 : ℚ)| / (3 / 16)⌉ < 2 ^ 29 ∧
    ∃ n : Int, 0 ≤ n ∧
      (∀ (buffer : List Nat) (outputCount : Int),
        ∃ r, HandleAutoReceiveData ByteOrder.little
            { m_angle := 1, m_angleDiff := 1, m_angleCallbacks := [] } buffer 0 outputCount =
          some r ∧ r.outputCount = n) ∧
      (∀ (buffer : List Nat) (outputCount : Int), n ≤ buffer.length →
        ∃ r, HandleAutoReceiveData ByteOrder.little
            { m_angle := 1, m_angleDiff := 1, m_angleCallbacks := [] } buffer n outputCount =
          some r ∧ r.state.m_angleDiff = 0) ∧
      (∀ (buffer : List Nat) (m outputCount : Int), 0 ≤ m → m ≤ buffer.length →
        m / 4 < n / 4 →
        ∃ r, HandleAutoReceiveData ByteOrder.little
            { m_angle := 1, m_angleDiff := 1, m_angleCallbacks := [] } buffer m outputCount =
          some r ∧ r.state.m_angleDiff ≠ 0) :=
  have h : ⌈|(1 : ℚ)| / (3 / 16)⌉ < 2 ^ 29 := by
    rw [ceil_one]
    decide
  ⟨h, preflight_length_sufficient ByteOrder.little
    { m_angle := 1, m_angleDiff := 1, m_angleCallbacks := [] } h⟩

/-- Counterexample to C2 as stated: with a pending delta of `100663296` degrees the pre-flight
query returns `-2147483648`, and no call with that `numToRead`, on any buffer, has a result
that leaves `pendingDelta == 0`. -/
theorem preflight_length_overflow :
    ∃ r, HandleAutoReceiveData ByteOrder.little
        { m_angle := 0, m_angleDiff := 100663296, m_angleCallbacks := [] } [] 0 0 = some r ∧
      r.outputCount = -2147483648 ∧
      ∀ (buffer : List Nat) (outputCount : Int),
        ¬ ∃ r1, HandleAutoReceiveData ByteOrder.little
            { m_angle := 0, m_angleDiff := 100663296, m_angleCallbacks := [] } buffer
            r.outputCount outputCount = some r1 ∧ r1.state.m_angleDiff = 0 := by
  have hc : toInt32 (messagesToSend
      { m_angle := 0, m_angleDiff := 100663296, m_angleCallbacks := [] } * kPacketSize) =
      -2147483648 := by
    simp only [messagesToSend_eq, ceil_large]
    decide
  refine ⟨_, preflight_spec _ _ _ _, hc, ?_⟩
  intro buffer outputCount
  simp only [hc]
  rintro ⟨r1, h1, _⟩
  simp [HandleAutoReceiveData] at h1

/-! ## The sequence of packets -/

theorem sgn_of_pos {d : ℚ} (h : 0 < d) : sgn d = 1 := by
  simp only [sgn, if_pos h]

theorem sgn_of_neg {d : ℚ} (h : d < 0) : sgn d = -1 := by
  simp only [sgn, if_neg (not_lt.mpr h.le), if_pos h]

theorem truncate_intCast (z : Int) : truncate (z : ℚ) = z := by
  unfold truncate
  split_ifs
  · exact Int.floor_intCast z
  · exact Int.ceil_intCast z

theorem steps_integral (k : Nat) (d : ℚ) (h : ∃ z : Int, d * 160000 = z) :
    ∀ step ∈ steps k d, ∃ z : Int, step * 160000 = z := by
  induction k generalizing d with
  | zero =>
    intro step hs
    simp only [steps, List.not_mem_nil] at hs
  | succ k ih =>
    obtain ⟨z, hz⟩ := h
    have hc : ∃ c : Int,
        clamp d (-kMaxAngleDeltaPerMessage) kMaxAngleDeltaPerMessage * 160000 = c := by
      rw [clamp_eq]
      split_ifs
      · exact ⟨30000, by norm_num⟩
      · exact ⟨-30000, by norm_num⟩
      · exact ⟨z, hz⟩
    obtain ⟨c, hc⟩ := hc
    intro step hs
    simp only [steps, List.mem_cons] at hs
    rcases hs with hs | hs
    · rw [hs]
      exact ⟨c, hc⟩
    · refine ih _ ⟨z - c, ?_⟩ step hs
      rw [sub_mul, hz, hc]
      push_cast
      rfl

theorem wireBytes_slice (ws rest : List Nat) (i : Nat) (w : Nat) (h : ws[i]? = some w) :
    ((wireBytes ws ++ rest).drop (4 * i)).take 4 = beBytes w := by
  induction ws generalizing i with
  | nil => simp at h
  | cons v ws ih =>
    cases i with
    | zero =>
      simp only [List.getElem?_cons_zero, Option.some.injEq] at h
      subst h
      rfl
    | succ i =>
      simp only [List.getElem?_cons_succ] at h
      have h4 : 4 * (i + 1) = 4 * i + 1 + 1 + 1 + 1 := by ring
      have hd : List.drop (4 * (i + 1)) (wireBytes (v :: ws) ++ rest) =
          List.drop (4 * i) (wireBytes ws ++ rest) := by
        rw [h4]
        rfl
      rw [hd]
      exact ih i h

/-- Counterexample to C4 as stated: with a pending delta of `3 / 640000` the step times
`160000` is `0.75`, which rounds to 1; the word of the claim is `0x04000400`, bytes
`04 00 04 00`, but the packet written is `04 00 00 00`, the word of the count 0. -/
theorem rounded_word_differs :
    ∃ r, HandleAutoReceiveData ByteOrder.little
        { m_angle := 0, m_angleDiff := 3 / 640000, m_angleCallbacks := [] } [9, 9, 9, 9] 4 0 =
      some r ∧
      r.buffer = [4, 0, 0, 0] ∧
      beBytes (wordOfCount (round (clamp (3 / 640000) (-(3 / 16)) (3 / 16) * 160000))) =
        [4, 0, 4, 0] := by
  have hclamp : clamp (3 / 640000) (-kMaxAngleDeltaPerMessage) kMaxAngleDeltaPerMessage =
      3 / 640000 := by
    rw [clamp_eq]
    norm_num
  have ht : truncate ((3 / 640000 : ℚ) * kAngleLsb) = 0 := by
    rw [kAngleLsb_eq]
    unfold truncate
    rw [if_pos (by norm_num), Int.floor_eq_iff]
    norm_num
  have hr : round ((3 / 640000 : ℚ) * 160000) = 1 := by
    rw [round_eq, Int.floor_eq_iff]
    norm_num
  refine ⟨_, fill_spec _ _ _ _ _ (by decide) (by decide), ?_, ?_⟩
  · have h1 : ((4 : Int) / 4).toNat = 1 := by decide
    simp only [h1, steps, hclamp, List.map_cons, List.map_nil,
      packetWord_eq _ (show |(3 / 640000 : ℚ)| ≤ 3 / 16 by rw [abs_of_pos] <;> norm_num), ht]
    decide
  · rw [← kMax_eq, hclamp, hr]
    decide

theorem toNat_div_cast (n : Int) (h : 0 ≤ n) : (((n / 4).toNat : Nat) : ℚ) = ((n / 4 : Int) : ℚ) := by
  have : (((n / 4).toNat : Nat) : Int) = n / 4 := by omega
  exact_mod_cast this

theorem fill_ops_bound (host : ByteOrder) (ops : List Op) :
    ∀ s : Gyro, (∀ op ∈ ops, op.isFill) →
      ∃ s1, runOps host ops s = some s1 ∧
        |s1.m_angleDiff| ≤ max (|s.m_angleDiff| - ops.length * (3 / 16)) 0 := by
  induction ops with
  | nil =>
    intro s _
    refine ⟨s, rfl, ?_⟩
    simp only [List.length_nil, Nat.cast_zero, zero_mul, sub_zero]
    exact le_max_left _ _
  | cons op ops ih =>
    intro s h
    have hop := h op (List.mem_cons_self _ _)
    cases op with
    | autoReceive buffer numToRead outputCount =>
      obtain ⟨h4, hlen⟩ := hop
      obtain ⟨s1, hrun, hb⟩ := ih
        { s with m_angleDiff := drain (numToRead / 4).toNat s.m_angleDiff }
        (fun o ho => h o (List.mem_cons_of_mem _ ho))
      refine ⟨s1, ?_, ?_⟩
      · simp only [runOps, Op.apply, fill_spec host s buffer numToRead outputCount (by omega) hlen,
          Option.map_some']
        exact hrun
      · refine le_trans hb ?_
        simp only [abs_drain, List.length_cons]
        have hk : (1 : ℚ) ≤ ((numToRead / 4).toNat : Nat) := by
          have : 1 ≤ (numToRead / 4).toNat := by omega
          exact_mod_cast this
        have hl : (0 : ℚ) ≤ (ops.length : ℚ) := Nat.cast_nonneg _
        push_cast
        apply max_le
        · have h1 : max (|s.m_angleDiff| - ((numToRead / 4).toNat : Nat) * (3 / 16)) 0 ≤
              max (|s.m_angleDiff| - 3 / 16) 0 :=
            max_le_max (by nlinarith) le_rfl
          rcases le_total (|s.m_angleDiff| - 3 / 16) 0 with h2 | h2
          · rw [max_eq_right h2] at h1
            exact le_trans (by nlinarith) (le_max_right _ _)
          · rw [max_eq_left h2] at h1
            exact le_trans (by linarith) (le_max_left _ _)
        · exact le_max_right _ _
    | statusRead _ _ => exact hop.elim
    | registerAngle _ _ _ => exact hop.elim
    | cancelAngle _ => exact hop.elim
    | setAngle _ => exact hop.elim
    | resetData => exact hop.elim

theorem fill_ops_drained (host : ByteOrder) (s : Gyro) (ops : List Op)
    (h : ∀ op ∈ ops, op.isFill) (hlen : ⌈|s.m_angleDiff| / (3 / 16)⌉.toNat ≤ ops.length) :
    ∃ s1, runOps host ops s = some s1 ∧ s1.m_angleDiff = 0 := by
  obtain ⟨s1, hrun, hb⟩ := fill_ops_bound host ops s h
  refine ⟨s1, hrun, ?_⟩
  have h0 := ceil_abs_nonneg s.m_angleDiff
  have h1 := abs_le_ceil_mul s.m_angleDiff
  have h2 : (⌈|s.m_angleDiff| / (3 / 16)⌉ : ℚ) ≤ (ops.length : ℚ) := by
    have : ⌈|s.m_angleDiff| / (3 / 16)⌉ ≤ (ops.length : Int) := by omega
    exact_mod_cast this
  rw [max_eq_right (by nlinarith)] at hb
  exact abs_eq_zero.mp (le_antisymm hb (abs_nonneg _))

/-! ## The status read -/

theorem handleRead_spec (host : ByteOrder) (s : Gyro) (buffer : List Nat) (count : Nat)
    (h : 4 ≤ buffer.length) :
    HandleRead host s buffer count =
      some (s, hostBytes host 0x00400AE0 ++ buffer.drop 4) := by
  have hsplit : buffer = [] ++ buffer.take 4 ++ buffer.drop 4 := by
    rw [List.nil_append, List.take_append_drop]
  have htake : (buffer.take 4).length = (hostBytes host 0x00400AE0).length := by
    rw [List.length_take, hostBytes_length]
    omega
  have hcopy := memcpy_append [] (buffer.take 4) (buffer.drop 4) (hostBytes host 0x00400AE0) htake
  rw [← hsplit] at hcopy
  have hcode : toU32 (0x00400AE0 : Int) = 0x00400AE0 := by decide
  simp only [HandleRead, hcode]
  rw [show ([] : List Nat).length = 0 from rfl] at hcopy
  rw [hcopy]
  rfl

/-- C7: for every state, every `count` and every buffer of at least 4 bytes, `HandleRead`
leaves the state as it is and makes the first 4 bytes of the buffer hold, in the byte order
of the host, the 32-bit value `0x00400AE0`; the bytes from index 4 on and the length of the
buffer are unchanged. -/
theorem status_read (host : ByteOrder) (s : Gyro) (buffer : List Nat) (count : Nat)
    (h : 4 ≤ buffer.length) :
    ∃ buffer1, HandleRead host s buffer count = some (s, buffer1) ∧
      buffer1.take 4 = hostBytes host 0x00400AE0 ∧
      hostWord host (buffer1.take 4) = 0x00400AE0 ∧
      buffer1.drop 4 = buffer.drop 4 ∧
      buffer1.length = buffer.length := by
  have htake : (hostBytes host 0x00400AE0 ++ buffer.drop 4).take 4 = hostBytes host 0x00400AE0 := by
    cases host <;> rfl
  have hdrop : (hostBytes host 0x00400AE0 ++ buffer.drop 4).drop 4 = buffer.drop 4 := by
    cases host <;> rfl
  refine ⟨_, handleRead_spec host s buffer count h, htake, ?_, hdrop, ?_⟩
  · rw [htake, hostWord_hostBytes]
    decide
  · rw [List.length_append, hostBytes_length, List.length_drop]
    omega

/-- Witness of C7: a buffer of six bytes on a little-endian host. -/
theorem status_read_witness :
    4 ≤ [1, 2, 3, 4, 5, 6].length ∧
    ∃ buffer1, HandleRead ByteOrder.little
        { m_angle := 2, m_angleDiff := 1, m_angleCallbacks := [] } [1, 2, 3, 4, 5, 6] 4 =
      some ({ m_angle := 2, m_angleDiff := 1, m_angleCallbacks := [] }, buffer1) ∧
      buffer1.take 4 = hostBytes ByteOrder.little 0x00400AE0 ∧
      hostWord ByteOrder.little (buffer1.take 4) = 0x00400AE0 ∧
      buffer1.drop 4 = [1, 2, 3, 4, 5, 6].drop 4 ∧
      buffer1.length = [1, 2, 3, 4, 5, 6].length :=
  ⟨by decide, status_read ByteOrder.little
    { m_angle := 2, m_angleDiff := 1, m_angleCallbacks := [] } [1, 2, 3, 4, 5, 6] 4 (by decide)⟩

/-! ## The commanded angle -/

theorem setAngle_angle (s : Gyro) (x : ℚ) : (SetAngle s x).1.m_angle = x := by
  unfold SetAngle
  split_ifs with h
  · rfl
  · exact not_not.mp h

theorem apply_keeps_angle (host : ByteOrder) (op : Op) (s : Gyro)
    (hb : op.inBounds) (ha : op.assignsAngle = false) :
    ∃ s1, op.apply host s = some s1 ∧ s1.m_angle = s.m_angle := by
  cases op with
  | statusRead buffer count =>
    exact ⟨s, by simp only [Op.apply, handleRead_spec host s buffer count hb,
      Option.map_some'], rfl⟩
  | autoReceive buffer numToRead outputCount =>
    obtain ⟨h0, hlen⟩ := hb
    rcases h0.lt_or_eq with hpos | hz
    · exact ⟨{ s with m_angleDiff := drain (numToRead / 4).toNat s.m_angleDiff },
        by simp only [Op.apply, fill_spec host s buffer numToRead outputCount hpos hlen,
          Option.map_some'], rfl⟩
    · subst hz
      exact ⟨s, by simp only [Op.apply, preflight_spec, Option.map_some'], rfl⟩
  | registerAngle callback param initialNotify =>
    refine ⟨_, rfl, ?_⟩
    unfold RegisterAngleCallback
    split_ifs <;> rfl
  | cancelAngle uid => exact ⟨_, rfl, rfl⟩
  | setAngle angle => simp [Op.assignsAngle] at ha
  | resetData => simp [Op.assignsAngle] at ha

theorem runOps_keeps_angle (host : ByteOrder) (ops : List Op) :
    ∀ s : Gyro, (∀ op ∈ ops, op.inBounds ∧ op.assignsAngle = false) →
      ∃ s1, runOps host ops s = some s1 ∧ s1.m_angle = s.m_angle := by
  induction ops with
  | nil =>
    intro s _
    exact ⟨s, rfl, rfl⟩
  | cons op ops ih =>
    intro s h
    obtain ⟨hb, ha⟩ := h op (List.mem_cons_self _ _)
    obtain ⟨s1, h1, h1a⟩ := apply_keeps_angle host op s hb ha
    obtain ⟨s2, h2, h2a⟩ := ih s1 (fun o ho => h o (List.mem_cons_of_mem _ ho))
    refine ⟨s2, ?_, by rw [h2a, h1a]⟩
    simp only [runOps, h1]
    exact h2

/-- C8: for every state and every `x`, after `SetAngle(x)` followed by any finite sequence of
status reads, pre-flight queries, fill calls, `RegisterAngleCallback` and
`CancelAngleCallback` calls (each read on a buffer that holds the bytes it writes, and no
`SetAngle` or `ResetData` among them), `GetAngle()` returns `x`; whether `x` differs from
the previous angle or not. -/
theorem getAngle_after_setAngle (host : ByteOrder) (s : Gyro) (x : ℚ) (ops : List Op)
    (h : ∀ op ∈ ops, op.inBounds ∧ op.assignsAngle = false) :
    ∃ s1, runOps host ops (SetAngle s x).1 = some s1 ∧ GetAngle s1 = x := by
  obtain ⟨s1, hrun, ha⟩ := runOps_keeps_angle host ops (SetAngle s x).1 h
  exact ⟨s1, hrun, by rw [GetAngle, ha, setAngle_angle]⟩

/-- Witness of C8: `SetAngle(5)` from angle 2, then a registration with initial notification,
a pre-flight query, a fill call, a status read and a cancellation. -/
theorem getAngle_after_setAngle_witness :
    (∀ op ∈ [Op.registerAngle 7 0 true, Op.autoReceive [] 0 0,
        Op.autoReceive [0, 0, 0, 0, 0] 5 0, Op.statusRead [0, 0, 0, 0] 4, Op.cancelAngle 1],
      op.inBounds ∧ op.assignsAngle = false) ∧
    ∃ s1, runOps ByteOrder.little
        [Op.registerAngle 7 0 true, Op.autoReceive [] 0 0,
          Op.autoReceive [0, 0, 0, 0, 0] 5 0, Op.statusRead [0, 0, 0, 0] 4, Op.cancelAngle 1]
        (SetAngle { m_angle := 2, m_angleDiff := 0, m_angleCallbacks := [] } 5).1 = some s1 ∧
      GetAngle s1 = 5 := by
  have h : ∀ op ∈ [Op.registerAngle 7 0 true, Op.autoReceive [] 0 0,
      Op.autoReceive [0, 0, 0, 0, 0] 5 0, Op.statusRead [0, 0, 0, 0] 4, Op.cancelAngle 1],
      op.inBounds ∧ op.assignsAngle = false := by
    intro op hop
    simp only [List.mem_cons, List.mem_singleton, List.not_mem_nil, or_false] at hop
    rcases hop with rfl | rfl | rfl | rfl | rfl <;>
      simp [Op.inBounds, Op.assignsAngle]
  exact ⟨h, getAngle_after_setAngle ByteOrder.little _ 5 _ h⟩

/-- C10: for every state whose angle equals `x`, `SetAngle(x)` leaves the whole state (angle,
pending delta, subscriptions) as it is and calls no callback. -/
theorem setAngle_same (s : Gyro) (x : ℚ) (h : s.m_angle = x) : SetAngle s x = (s, []) := by
  unfold SetAngle
  rw [if_neg (not_not.mpr h)]

/-- Witness of C10: a state at angle 3 with one subscription. -/
theorem setAngle_same_witness :
    ({ m_angle := 3, m_angleDiff := 1 / 2,
       m_angleCallbacks := [{ uid := 1, callback := 7, param := 0 }] } : Gyro).m_angle = 3 ∧
    SetAngle { m_angle := 3, m_angleDiff := 1 / 2,
               m_angleCallbacks := [{ uid := 1, callback := 7, param := 0 }] } 3 =
      ({ m_angle := 3, m_angleDiff := 1 / 2,
         m_angleCallbacks := [{ uid := 1, callback := 7, param := 0 }] }, []) :=
  ⟨rfl, setAngle_same _ 3 rfl⟩

/-! ## The callback registry -/

/-- C11: for every state, every `param` and every `initialNotify`, `RegisterAngleCallback`
with a null callback returns `-1`, leaves the whole state (subscriptions, angle, pending
delta) as it is and calls no callback. -/
theorem register_null (s : Gyro) (param : Nat) (initialNotify : Bool) :
    RegisterAngleCallback s 0 param initialNotify = (s, -1, []) := by
  unfold RegisterAngleCallback
  rw [if_pos rfl]

theorem filter_uid_length (cbs : List Subscription) (uid : Int)
    (hnd : (cbs.map Subscription.uid).Nodup) (hmem : uid ∈ cbs.map Subscription.uid) :
    (cbs.filter (fun sub => sub.uid ≠ uid)).length + 1 = cbs.length := by
  induction cbs with
  | nil => simp at hmem
  | cons c cbs ih =>
    rw [List.map_cons, List.nodup_cons] at hnd
    by_cases hc : c.uid = uid
    · have hnot : ∀ sub ∈ cbs, sub.uid ≠ uid := by
        intro sub hsub heq
        exact hnd.1 (by rw [hc, ← heq]; exact List.mem_map_of_mem _ hsub)
      have hall : cbs.filter (fun sub => sub.uid ≠ uid) = cbs := by
        rw [List.filter_eq_self]
        intro sub hsub
        simpa using hnot sub hsub
      rw [List.filter_cons_of_neg (by simpa using hc), hall, List.length_cons]
    · have hmem1 : uid ∈ cbs.map Subscription.uid := by
        rw [List.map_cons, List.mem_cons] at hmem
        rcases hmem with h | h
        · exact absurd h.symm hc
        · exact h
      rw [List.filter_cons_of_pos (by simpa using hc), List.length_cons, List.length_cons,
        ih hnd.2 hmem1]

/-- C12: with the registry an ordered collection of subscriptions, for every registry and
every identifier, after `CancelAngleCallback(uid)` a `SetAngle` to a value different from
the current angle calls, with the new angle and in registration order, exactly the
subscriptions whose identifier is not `uid`, each once; cancelling an identifier that is not
registered leaves the state as it is; and when the identifiers are distinct and `uid` is
registered, exactly one subscription is removed. -/
theorem cancel_then_notify (s : Gyro) (uid : Int) (x : ℚ) (hx : s.m_angle ≠ x) :
    (SetAngle (CancelAngleCallback s uid) x).2 =
      (s.m_angleCallbacks.filter (fun sub => sub.uid ≠ uid)).map (fun sub =>
        { callback := sub.callback, param := sub.param, value := x,
          storedAngle := s.m_angle, storedDiff := s.m_angleDiff }) ∧
    ((∀ sub ∈ s.m_angleCallbacks, sub.uid ≠ uid) → CancelAngleCallback s uid = s) ∧
    ((s.m_angleCallbacks.map Subscription.uid).Nodup →
      uid ∈ s.m_angleCallbacks.map Subscription.uid →
      (CancelAngleCallback s uid).m_angleCallbacks.length + 1 = s.m_angleCallbacks.length) := by
  refine ⟨?_, ?_, ?_⟩
  · have h1 : (CancelAngleCallback s uid).m_angle ≠ x := hx
    simp only [SetAngle, if_pos h1]
    rfl
  · intro h
    have hall : s.m_angleCallbacks.filter (fun sub => sub.uid ≠ uid) = s.m_angleCallbacks := by
      rw [List.filter_eq_self]
      intro sub hsub
      simpa using h sub hsub
    unfold CancelAngleCallback CancelCallback
    rw [hall]
  · intro hnd hmem
    exact filter_uid_length s.m_angleCallbacks uid hnd hmem

/-- Witness of C12: three subscriptions, the second cancelled, then `SetAngle(5)` from 2. -/
theorem cancel_then_notify_witness :
    threeSubscribers.m_angle ≠ 5 ∧
    (SetAngle (CancelAngleCallback threeSubscribers 2) 5).2 =
      [{ callback := 7, param := 0, value := 5, storedAngle := 2, storedDiff := 1 },
       { callback := 9, param := 4, value := 5, storedAngle := 2, storedDiff := 1 }] := by
  have hx : threeSubscribers.m_angle ≠ 5 := by
    unfold threeSubscribers
    norm_num
  refine ⟨hx, ?_⟩
  rw [(cancel_then_notify _ 2 5 hx).1]
  decide

/-! ## Reset -/

theorem ceil_zero : ⌈|(0 : ℚ)| / (3 / 16)⌉ = 0 := by
  rw [abs_zero, zero_div]
  exact Int.ceil_zero

/-- C13: for every state, after `ResetData()` the angle is 0, the pending delta is 0 and
there is no subscription; `GetAngle()` returns 0, the pre-flight query returns
`outputCount = 0`, and a following `SetAngle` to a non-zero angle takes effect and calls no
callback. -/
theorem reset_power_on (host : ByteOrder) (s : Gyro) (buffer : List Nat) (outputCount : Int)
    (x : ℚ) (hx : x ≠ 0) :
    ResetData s = { m_angle := 0, m_angleDiff := 0, m_angleCallbacks := [] } ∧
    GetAngle (ResetData s) = 0 ∧
    HandleAutoReceiveData host (ResetData s) buffer 0 outputCount =
      some { state := ResetData s, buffer := buffer, outputCount := 0 } ∧
    SetAngle (ResetData s) x =
      ({ m_angle := x, m_angleDiff := x, m_angleCallbacks := [] }, []) := by
  refine ⟨rfl, rfl, ?_, ?_⟩
  · have hr : ⌈|(ResetData s).m_angleDiff| / (3 / 16)⌉ = 0 := ceil_zero
    rw [preflight_in_range host (ResetData s) buffer outputCount (by rw [hr]; decide), hr]
    rfl
  · have h0 : (0 : ℚ) ≠ x := fun h => hx h.symm
    simp only [SetAngle, ResetData, if_pos h0, InvokeAngleCallback, InvokeCallback,
      List.map_nil, zero_add, sub_zero]

/-- Witness of C13: reset of an object with three subscriptions, then `SetAngle(5)`. -/
theorem reset_power_on_witness :
    (5 : ℚ) ≠ 0 ∧
    ResetData threeSubscribers = { m_angle := 0, m_angleDiff := 0, m_angleCallbacks := [] } ∧
    GetAngle (ResetData threeSubscribers) = 0 ∧
    HandleAutoReceiveData ByteOrder.little (ResetData threeSubscribers) [1, 2] 0 9 =
      some { state := ResetData threeSubscribers, buffer := [1, 2], outputCount := 0 } ∧
    SetAngle (ResetData threeSubscribers) 5 =
      ({ m_angle := 5, m_angleDiff := 5, m_angleCallbacks := [] }, []) :=
  ⟨by norm_num, reset_power_on ByteOrder.little threeSubscribers [1, 2] 9 5 (by norm_num)⟩

/-! ## Frame of the auto-receive read -/

/-- C14: for every state and every buffer, `HandleAutoReceiveData` with `numToRead == 0`
changes `outputCount` only: the state (angle, pending delta, subscriptions) and the buffer
are as before, and a second pre-flight query, on any buffer, returns the same
`outputCount`. -/
theorem preflight_read_only (host : ByteOrder) (s : Gyro) (buffer : List Nat)
    (outputCount : Int) :
    ∃ r, HandleAutoReceiveData host s buffer 0 outputCount = some r ∧
      r.state = s ∧ r.buffer = buffer ∧
      ∀ (buffer1 : List Nat) (outputCount1 : Int),
        ∃ r1, HandleAutoReceiveData host r.state buffer1 0 outputCount1 = some r1 ∧
          r1.state = s ∧ r1.buffer = buffer1 ∧ r1.outputCount = r.outputCount :=
  ⟨_, preflight_spec host s buffer outputCount, rfl, rfl,
    fun buffer1 outputCount1 => ⟨_, preflight_spec host s buffer1 outputCount1, rfl, rfl, rfl⟩⟩

theorem truncate_of_small (x : ℚ) (h : |x| < 1) : truncate x = 0 := by
  rw [abs_lt] at h
  unfold truncate
  split_ifs with h0
  · rw [Int.floor_eq_iff]
    constructor
    · simpa using h0
    · simpa using h.2
  · rw [Int.ceil_eq_iff]
    constructor
    · simpa using h.1
    · simpa using (not_le.mp h0).le

theorem steps_zero (k : Nat) : steps k 0 = List.replicate k 0 := by
  induction k with
  | zero => rfl
  | succ k ih =>
    have h : clamp 0 (-kMaxAngleDeltaPerMessage) kMaxAngleDeltaPerMessage = 0 := by
      rw [clamp_eq]
      norm_num
    simp only [steps, h, sub_zero, ih, List.replicate_succ]

/-! ## Split reads -/

theorem wireBytes_append (a b : List Nat) : wireBytes (a ++ b) = wireBytes a ++ wireBytes b := by
  induction a with
  | nil => rfl
  | cons w a ih =>
    show wireBytes (w :: (a ++ b)) = wireBytes (w :: a) ++ wireBytes b
    simp only [wireBytes, ih, List.append_assoc]

theorem take_of_append (l rest : List Nat) (n : Nat) (h : l.length = n) :
    (l ++ rest).take n = l := by
  rw [← h, List.take_left]

/-- C20: for every pending delta, every `n1 > 0` that is a multiple of 4 and every
`n2 > 0`, a fill call with `numToRead = n1` followed by one with `numToRead = n2` leaves the
state that a single fill call with `numToRead = n1 + n2` leaves, and the first `n1` bytes of
the first call followed by the first `n2` bytes of the second are the first `n1 + n2` bytes
of the single call (each call on a buffer of at least `numToRead` bytes). -/
theorem split_fill (host : ByteOrder) (s : Gyro) (buffer1 buffer2 buffer : List Nat)
    (n1 n2 outputCount1 outputCount2 outputCount : Int)
    (h1 : 0 < n1) (hm : n1 % 4 = 0) (h2 : 0 < n2)
    (hl1 : n1 ≤ buffer1.length) (hl2 : n2 ≤ buffer2.length) (hl : n1 + n2 ≤ buffer.length) :
    ∃ r1 r2 r,
      HandleAutoReceiveData host s buffer1 n1 outputCount1 = some r1 ∧
      HandleAutoReceiveData host r1.state buffer2 n2 outputCount2 = some r2 ∧
      HandleAutoReceiveData host s buffer (n1 + n2) outputCount = some r ∧
      r2.state.m_angleDiff = r.state.m_angleDiff ∧
      r2.state = r.state ∧
      r1.buffer.take n1.toNat ++ r2.buffer.take n2.toNat = r.buffer.take (n1 + n2).toNat := by
  have hk : ((n1 + n2) / 4).toNat = (n1 / 4).toNat + (n2 / 4).toNat := by omega
  have hr1 : n1.toNat % 4 = 0 := by omega
  have hr : (n1 + n2).toNat % 4 = n2.toNat % 4 := by omega
  have hw : ∀ (k : Nat) (d : ℚ), (wireBytes ((steps k d).map packetWord)).length = 4 * k := by
    intro k d
    rw [wireBytes_length, List.length_map, steps_length]
  refine ⟨_, _, _, fill_spec host s buffer1 n1 outputCount1 h1 hl1,
    fill_spec host _ buffer2 n2 outputCount2 h2 hl2,
    fill_spec host s buffer (n1 + n2) outputCount (by omega) hl, ?_, ?_, ?_⟩
  · simp only [hk, drain_add]
  · simp only [hk, drain_add]
  · simp only [hk, hr, hr1, steps_add, List.map_append, wireBytes_append, List.replicate_zero,
      List.append_nil]
    rw [take_of_append _ _ _ (by rw [hw]; omega),
      take_of_append _ _ n2.toNat (by
        rw [List.length_append, hw, List.length_replicate]
        omega),
      take_of_append _ _ (n1 + n2).toNat (by
        simp only [List.length_append, hw, List.length_replicate]
        omega)]
    simp only [List.append_assoc]

/-- Witness of C20: a pending delta of 1, `n1 = 4` and `n2 = 6`. -/
theorem split_fill_witness :
    (0 : Int) < 4 ∧ (4 : Int) % 4 = 0 ∧ (0 : Int) < 6 ∧
    (4 : Int) ≤ (List.replicate 4 0).length ∧ (6 : Int) ≤ (List.replicate 6 0).length ∧
    (4 : Int) + 6 ≤ (List.replicate 10 0).length ∧
    ∃ r1 r2 r,
      HandleAutoReceiveData ByteOrder.little threeSubscribers (List.replicate 4 0) 4 0 =
        some r1 ∧
      HandleAutoReceiveData ByteOrder.little r1.state (List.replicate 6 0) 6 0 = some r2 ∧
      HandleAutoReceiveData ByteOrder.little threeSubscribers (List.replicate 10 0) (4 + 6) 0 =
        some r ∧
      r2.state.m_angleDiff = r.state.m_angleDiff ∧
      r2.state = r.state ∧
      r1.buffer.take (4 : Int).toNat ++ r2.buffer.take (6 : Int).toNat =
        r.buffer.take ((4 : Int) + 6).toNat :=
  ⟨by decide, by decide, by decide, by decide, by decide, by decide,
    split_fill ByteOrder.little threeSubscribers (List.replicate 4 0) (List.replicate 6 0)
      (List.replicate 10 0) 4 6 0 0 0 (by decide) (by decide) (by decide) (by decide)
      (by decide) (by decide)⟩

/-! ## Rounding to a double -/

theorem roundEven_intCast (n : Int) : roundEven (n : ℚ) = n := by
  unfold roundEven
  rw [Int.floor_intCast, sub_self, if_pos (by norm_num)]

theorem roundEven_between (y : ℚ) : ⌊y⌋ ≤ roundEven y ∧ roundEven y ≤ ⌈y⌉ := by
  have hc : y - ⌊y⌋ ≠ 0 → ⌊y⌋ + 1 ≤ ⌈y⌉ := by
    intro h
    have hlt : (⌊y⌋ : ℚ) < y := lt_of_le_of_ne (Int.floor_le y) (fun e => h (by rw [e, sub_self]))
    exact Int.lt_ceil.mpr hlt
  have hfc : ⌊y⌋ ≤ ⌈y⌉ := Int.floor_le_ceil y
  unfold roundEven
  split_ifs with h1 h2 h3
  · exact ⟨le_rfl, hfc⟩
  · exact ⟨by omega, hc (by linarith)⟩
  · exact ⟨le_rfl, hfc⟩
  · exact ⟨by omega, hc (by linarith)⟩

theorem log_two_eq (x : ℚ) (e : Int) (h1 : (2 : ℚ) ^ e ≤ x) (h2 : x < (2 : ℚ) ^ (e + 1)) :
    Int.log 2 x = e := by
  have hx : 0 < x := lt_of_lt_of_le (by positivity) h1
  have ha : e ≤ Int.log 2 x :=
    (Int.zpow_le_iff_le_log (by norm_num) hx).mp (by exact_mod_cast h1)
  have hb : Int.log 2 x < e + 1 :=
    (Int.lt_zpow_iff_log_lt (by norm_num) hx).mp (by exact_mod_cast h2)
  omega

theorem roundDouble_eval (x : ℚ) (e : Int) (h1 : (2 : ℚ) ^ e ≤ |x|)
    (h2 : |x| < (2 : ℚ) ^ (e + 1)) :
    roundDouble x = (roundEven (x / 2 ^ (e - 52)) : ℚ) * 2 ^ (e - 52) := by
  have hx : x ≠ 0 := by
    intro h
    rw [h, abs_zero] at h1
    exact absurd h1 (not_le.mpr (by positivity))
  unfold roundDouble
  rw [if_neg hx, log_two_eq |x| e h1 h2]

theorem roundDouble_zero : roundDouble 0 = 0 := by
  unfold roundDouble
  rw [if_pos rfl]

theorem roundDouble_of_isDouble (x : ℚ) (h : isDouble x) : roundDouble x = x := by
  obtain ⟨m, t, hm, rfl⟩ := h
  by_cases hx : (m : ℚ) * 2 ^ t = 0
  · rw [hx, roundDouble_zero]
  · have hpos : 0 < |(m : ℚ) * 2 ^ t| := abs_pos.mpr hx
    have h2 : (0 : ℚ) < 2 ^ t := zpow_pos (by norm_num) t
    have hlt : |(m : ℚ) * 2 ^ t| < 2 ^ (53 + t) := by
      have hmq : |(m : ℚ)| < 2 ^ 53 := by exact_mod_cast hm
      rw [abs_mul, abs_of_pos h2, zpow_add₀ (by norm_num)]
      exact mul_lt_mul_of_pos_right (by exact_mod_cast hmq) h2
    have hlog : Int.log 2 |(m : ℚ) * 2 ^ t| < 53 + t :=
      (Int.lt_zpow_iff_log_lt (by norm_num) hpos).mp (by exact_mod_cast hlt)
    unfold roundDouble
    rw [if_neg hx]
    generalize Int.log 2 |(m : ℚ) * 2 ^ t| = e at hlog ⊢
    obtain ⟨j, hj⟩ : ∃ j : Nat, t = e - 52 + j := ⟨(t - (e - 52)).toNat, by omega⟩
    subst hj
    have hdiv : (m : ℚ) * 2 ^ (e - 52 + (j : Int)) / 2 ^ (e - 52) = ((m * 2 ^ j : Int) : ℚ) := by
      rw [zpow_add₀ (by norm_num), zpow_natCast]
      push_cast
      field_simp
      ring
    rw [hdiv, roundEven_intCast, zpow_add₀ (by norm_num), zpow_natCast]
    push_cast
    ring

theorem roundDouble_between (x : ℚ) (h : |x| < 2 ^ 53) :
    (⌊x⌋ : ℚ) ≤ roundDouble x ∧ roundDouble x ≤ (⌈x⌉ : ℚ) := by
  by_cases hx : x = 0
  · subst hx
    rw [roundDouble_zero]
    simp
  · have hpos : 0 < |x| := abs_pos.mpr hx
    have hlog : Int.log 2 |x| < 53 :=
      (Int.lt_zpow_iff_log_lt (by norm_num) hpos).mp (by exact_mod_cast h)
    unfold roundDouble
    rw [if_neg hx]
    generalize Int.log 2 |x| = e at hlog ⊢
    obtain ⟨k, hk⟩ : ∃ k : Nat, e - 52 = -(k : Int) := ⟨(52 - e).toNat, by omega⟩
    rw [hk, zpow_neg, zpow_natCast, div_inv_eq_mul]
    have hp : (0 : ℚ) < 2 ^ k := by positivity
    obtain ⟨hlo, hhi⟩ := roundEven_between (x * 2 ^ k)
    have h1 : ⌊x⌋ * 2 ^ k ≤ ⌊x * 2 ^ k⌋ := by
      rw [Int.le_floor]
      push_cast
      exact mul_le_mul_of_nonneg_right (Int.floor_le x) hp.le
    have h2 : ⌈x * 2 ^ k⌉ ≤ ⌈x⌉ * 2 ^ k := by
      rw [Int.ceil_le]
      push_cast
      exact mul_le_mul_of_nonneg_right (Int.le_ceil x) hp.le
    have h3 : ((⌊x⌋ * 2 ^ k : Int) : ℚ) ≤ (roundEven (x * 2 ^ k) : ℚ) := by
      exact_mod_cast le_trans h1 hlo
    have h4 : (roundEven (x * 2 ^ k) : ℚ) ≤ ((⌈x⌉ * 2 ^ k : Int) : ℚ) := by
      exact_mod_cast le_trans hhi h2
    push_cast at h3 h4
    constructor
    · rw [le_mul_inv_iff₀ hp]
      exact h3
    · rw [mul_inv_le_iff₀ hp]
      exact h4

theorem isDouble_zero : isDouble 0 := ⟨0, 0, by norm_num, by norm_num⟩

theorem isDouble_intCast (n : Int) (h : |n| < 2 ^ 53) : isDouble (n : ℚ) :=
  ⟨n, 0, h, by norm_num⟩

theorem isDouble_neg (x : ℚ) (h : isDouble x) : isDouble (-x) := by
  obtain ⟨m, t, hm, rfl⟩ := h
  exact ⟨-m, t, by rwa [abs_neg], by push_cast; ring⟩

theorem isDouble_sub_step (d : ℚ) (h : isDouble d) (h1 : 3 / 16 < d) (h2 : d ≤ 2 ^ 49) :
    isDouble (d - 3 / 16) := by
  obtain ⟨m, t, hm, rfl⟩ := h
  have hm1 : m < 2 ^ 53 := lt_of_le_of_lt (le_abs_self m) hm
  by_cases ht : -4 ≤ t
  · obtain ⟨j, hj⟩ : ∃ j : Nat, t = (j : Int) + (-4) := ⟨(t + 4).toNat, by omega⟩
    subst hj
    have he : (m : ℚ) * 2 ^ ((j : Int) + (-4)) = ((m * 2 ^ j : Int) : ℚ) / 16 := by
      rw [zpow_add₀ (by norm_num), zpow_natCast]
      push_cast
      norm_num
      ring
    rw [he] at h1 h2 ⊢
    have ha : (3 : ℚ) < ((m * 2 ^ j : Int) : ℚ) := by linarith
    have hb : ((m * 2 ^ j : Int) : ℚ) ≤ 2 ^ 53 := by
      have : ((m * 2 ^ j : Int) : ℚ) ≤ 16 * 2 ^ 49 := by linarith
      linarith
    have ha1 : (3 : Int) < m * 2 ^ j := by exact_mod_cast ha
    have hb1 : m * 2 ^ j ≤ (2 : Int) ^ 53 := by exact_mod_cast hb
    refine ⟨m * 2 ^ j - 3, -4, ?_, ?_⟩
    · rw [abs_lt]
      constructor <;> omega
    · push_cast
      norm_num
      ring
  · obtain ⟨j, hj⟩ : ∃ j : Nat, t = -4 - (j : Int) := ⟨(-4 - t).toNat, by omega⟩
    subst hj
    have hp : (0 : ℚ) < 2 ^ (-4 - (j : Int)) := zpow_pos (by norm_num) _
    have he : (3 / 16 : ℚ) = ((3 * 2 ^ j : Int) : ℚ) * 2 ^ (-4 - (j : Int)) := by
      rw [zpow_sub₀ (by norm_num), zpow_natCast]
      push_cast
      have : (2 : ℚ) ^ j ≠ 0 := by positivity
      field_simp
      ring
    have hsub : (m : ℚ) * 2 ^ (-4 - (j : Int)) - 3 / 16 =
        ((m - 3 * 2 ^ j : Int) : ℚ) * 2 ^ (-4 - (j : Int)) := by
      rw [he]
      push_cast
      ring
    have hpos : (0 : ℚ) < ((m - 3 * 2 ^ j : Int) : ℚ) := by
      have h3 : (0 : ℚ) < ((m - 3 * 2 ^ j : Int) : ℚ) * 2 ^ (-4 - (j : Int)) := by
        rw [← hsub]
        linarith
      exact (mul_pos_iff_of_pos_right hp).mp h3
    have hpos1 : (0 : Int) < m - 3 * 2 ^ j := by exact_mod_cast hpos
    have hj0 : (0 : Int) < 3 * 2 ^ j := by positivity
    refine ⟨m - 3 * 2 ^ j, -4 - (j : Int), ?_, hsub⟩
    rw [abs_lt]
    constructor <;> omega

/-! ## The fill loop in double arithmetic -/

theorem b64_steps_length (k : Nat) (d : ℚ) : (Binary64.steps k d).length = k := by
  induction k generalizing d with
  | zero => rfl
  | succ k ih => simp only [Binary64.steps, List.length_cons, ih]

theorem b64_fillLoop_spec (host : ByteOrder) (k : Nat) :
    ∀ (msgCtr : Nat) (pre mid post : List Nat) (d : ℚ),
      pre.length = msgCtr * 4 → mid.length = 4 * k →
      Binary64.fillLoop host k msgCtr (pre ++ mid ++ post) d =
        some (pre ++ wireBytes ((Binary64.steps k d).map Binary64.packetWord) ++ post,
          Binary64.drain k d) := by
  induction k with
  | zero =>
    intro msgCtr pre mid post d _ hmid
    have : mid = [] := List.length_eq_zero.mp (by omega)
    subst this
    simp only [Binary64.fillLoop, Binary64.steps, Binary64.drain, List.map_nil, wireBytes]
  | succ k ih =>
    intro msgCtr pre mid post d hpre hmid
    have hsplit : pre ++ mid ++ post = pre ++ mid.take 4 ++ (mid.drop 4 ++ post) := by
      rw [List.append_assoc pre (mid.take 4), ← List.append_assoc (mid.take 4),
        List.take_append_drop, List.append_assoc]
    have htake : (mid.take 4).length = 4 := by
      rw [List.length_take]
      omega
    have hdrop : (mid.drop 4).length = 4 * k := by
      rw [List.length_drop]
      omega
    simp only [Binary64.fillLoop, hostBytes_ntohl, Binary64.steps, Binary64.drain,
      List.map_cons, wireBytes]
    rw [hsplit, ← hpre, memcpy_append pre (mid.take 4) _ _ (by rw [htake, beBytes_length])]
    simp only []
    have hpre1 : (pre ++ beBytes (Binary64.packetWord (clamp d (-kMaxAngleDeltaPerMessage)
        kMaxAngleDeltaPerMessage))).length = (msgCtr + 1) * 4 := by
      rw [List.length_append, beBytes_length, hpre]
      omega
    rw [← List.append_assoc, ih (msgCtr + 1) _ (mid.drop 4) post _ hpre1 hdrop]
    simp only [List.append_assoc]

theorem b64_fill_spec (host : ByteOrder) (s : Gyro) (buffer : List Nat)
    (numToRead outputCount : Int) (hpos : 0 < numToRead) (hlen : numToRead ≤ buffer.length) :
    Binary64.HandleAutoReceiveData host s buffer numToRead outputCount =
      some { state := { s with
               m_angleDiff := Binary64.drain (numToRead / 4).toNat s.m_angleDiff },
             buffer := wireBytes ((Binary64.steps (numToRead / 4).toNat s.m_angleDiff).map
                 Binary64.packetWord) ++
               List.replicate (numToRead.toNat % 4) 0 ++ buffer.drop numToRead.toNat,
             outputCount := outputCount } := by
  have h0 : ¬ numToRead = 0 := by omega
  have h1 : ¬ numToRead < 0 := by omega
  have h2 : numToRead.toNat ≤ buffer.length := by omega
  have h3 : Int.tdiv numToRead kPacketSize = numToRead / 4 :=
    Int.tdiv_eq_ediv (by omega) (by decide)
  have h4 : numToRead.toNat = 4 * (numToRead / 4).toNat + numToRead.toNat % 4 := by omega
  have h5 : List.replicate numToRead.toNat 0 ++ buffer.drop numToRead.toNat =
      [] ++ List.replicate (4 * (numToRead / 4).toNat) 0 ++
        (List.replicate (numToRead.toNat % 4) 0 ++ buffer.drop numToRead.toNat) := by
    rw [List.nil_append, ← List.append_assoc, ← List.replicate_add, ← h4]
  simp only [Binary64.HandleAutoReceiveData, if_neg h0, if_neg h1, memset, if_pos h2, h3]
  rw [h5, b64_fillLoop_spec host _ 0 [] _ _ _ rfl (List.length_replicate _ _)]
  simp only [List.nil_append, List.append_assoc]

theorem b64_steps_get (k : Nat) (d : ℚ) (i : Nat) (h : i < k) :
    (Binary64.steps k d)[i]? =
      some (clamp (Binary64.drain i d) (-kMaxAngleDeltaPerMessage)
        kMaxAngleDeltaPerMessage) := by
  induction k generalizing d i with
  | zero => omega
  | succ k ih =>
    cases i with
    | zero => simp only [Binary64.steps, Binary64.drain, List.getElem?_cons_zero]
    | succ i =>
      simp only [Binary64.steps, Binary64.drain, List.getElem?_cons_succ]
      exact ih _ i (by omega)

theorem b64_drain_succ (i : Nat) (d : ℚ) :
    Binary64.drain (i + 1) d =
      roundDouble (Binary64.drain i d -
        clamp (Binary64.drain i d) (-kMaxAngleDeltaPerMessage) kMaxAngleDeltaPerMessage) := by
  induction i generalizing d with
  | zero => rfl
  | succ i ih =>
    show Binary64.drain (i + 1) _ = _
    rw [ih]
    rfl

/-! ## The count of a packet in double arithmetic -/

theorem truncate_between (y : ℚ) (a b : Int) (ha : (a : ℚ) ≤ y) (hb : y ≤ (b : ℚ)) :
    a ≤ truncate y ∧ truncate y ≤ b := by
  unfold truncate
  split_ifs
  · refine ⟨Int.le_floor.mpr ha, ?_⟩
    have : ((⌊y⌋ : Int) : ℚ) ≤ (b : ℚ) := le_trans (Int.floor_le y) hb
    exact_mod_cast this
  · refine ⟨?_, Int.ceil_le.mpr hb⟩
    have : (a : ℚ) ≤ ((⌈y⌉ : Int) : ℚ) := le_trans ha (Int.le_ceil y)
    exact_mod_cast this

theorem product_bounds (step : ℚ) (h : |step| ≤ 3 / 16) :
    -30000 ≤ ⌊step * 160000⌋ ∧ ⌈step * 160000⌉ ≤ 30000 ∧ |step * 160000| < 2 ^ 53 := by
  rw [abs_le] at h
  refine ⟨?_, ?_⟩
  · rw [Int.le_floor]
    push_cast
    linarith
  · constructor
    · rw [Int.ceil_le]
      push_cast
      linarith
    · rw [abs_lt]
      constructor <;> norm_num <;> linarith

theorem count_between (step : ℚ) (h : |step| ≤ 3 / 16) :
    ⌊step * 160000⌋ ≤ truncate (roundDouble (step * 160000)) ∧
      truncate (roundDouble (step * 160000)) ≤ ⌈step * 160000⌉ := by
  obtain ⟨_, _, hlt⟩ := product_bounds step h
  obtain ⟨hlo, hhi⟩ := roundDouble_between (step * 160000) hlt
  exact truncate_between _ _ _ hlo hhi

theorem b64_packetWord_eq (step : ℚ) (h : |step| ≤ 3 / 16) :
    Binary64.packetWord step = wordOfCount (truncate (roundDouble (step * 160000))) := by
  obtain ⟨h1, h2, _⟩ := product_bounds step h
  obtain ⟨h3, h4⟩ := count_between step h
  unfold Binary64.packetWord wordOfCount castInt32
  rw [kAngleLsb_eq, show (if 0 ≤ roundDouble (step * 160000)
      then ⌊roundDouble (step * 160000)⌋ else ⌈roundDouble (step * 160000)⌉) =
    truncate (roundDouble (step * 160000)) from rfl,
    toInt32_of_range (by omega) (by omega)]

theorem b64_packetWord_lt (step : ℚ) : Binary64.packetWord step < 2 ^ 32 :=
  Nat.or_lt_two_pow (Nat.and_lt_two_pow _ (by decide)) (by decide)

theorem b64_packetCount_packetWord (step : ℚ) (h : |step| ≤ 3 / 16) :
    packetCount (Binary64.packetWord step) = truncate (roundDouble (step * 160000)) := by
  obtain ⟨h1, h2, _⟩ := product_bounds step h
  obtain ⟨h3, h4⟩ := count_between step h
  rw [b64_packetWord_eq step h, packetCount_wordOfCount _ (by omega) (by omega)]

theorem b64_packets_steps (k : Nat) (d : ℚ) (rest : List Nat) :
    packets k (wireBytes ((Binary64.steps k d).map Binary64.packetWord) ++ rest) =
      (Binary64.steps k d).map Binary64.packetWord := by
  have h := packets_wireBytes ((Binary64.steps k d).map Binary64.packetWord) rest (by
    intro w hw
    rw [List.mem_map] at hw
    obtain ⟨x, _, rfl⟩ := hw
    exact b64_packetWord_lt x)
  rwa [List.length_map, b64_steps_length] at h

/-- C4 (as amended): in a fill call on a buffer of at least `numToRead` bytes, computed in
double arithmetic, the packet number `i` is emitted when the pending delta is `drain i d`
(`d` before the first packet, then the rounded difference after each packet) and, with
`step = clamp(pendingDelta, -0.1875, +0.1875)`, is the 32-bit word
`((raw << 10) & ~0x0C00000E) | 0x04000000` where `raw` is the double product
`step * 160000` with its fraction discarded (truncated toward zero, not rounded to the
nearest integer), an integer between the floor and the ceiling of the exact product; the
word is stored in the 4 bytes at offset `4 * i` most significant byte first. -/
theorem packet_encoding (host : ByteOrder) (s : Gyro) (buffer : List Nat)
    (numToRead outputCount : Int) (hpos : 0 < numToRead) (hlen : numToRead ≤ buffer.length) :
    ∃ r, Binary64.HandleAutoReceiveData host s buffer numToRead outputCount = some r ∧
      Binary64.drain 0 s.m_angleDiff = s.m_angleDiff ∧
      r.state.m_angleDiff = Binary64.drain (numToRead / 4).toNat s.m_angleDiff ∧
      ∀ i : Nat, i < (numToRead / 4).toNat →
        Binary64.drain (i + 1) s.m_angleDiff =
          roundDouble (Binary64.drain i s.m_angleDiff -
            clamp (Binary64.drain i s.m_angleDiff) (-(3 / 16)) (3 / 16)) ∧
        (r.buffer.drop (4 * i)).take 4 =
          beBytes (wordOfCount (truncate (roundDouble
            (clamp (Binary64.drain i s.m_angleDiff) (-(3 / 16)) (3 / 16) * 160000)))) ∧
        ⌊clamp (Binary64.drain i s.m_angleDiff) (-(3 / 16)) (3 / 16) * 160000⌋ ≤
          truncate (roundDouble
            (clamp (Binary64.drain i s.m_angleDiff) (-(3 / 16)) (3 / 16) * 160000)) ∧
        truncate (roundDouble
            (clamp (Binary64.drain i s.m_angleDiff) (-(3 / 16)) (3 / 16) * 160000)) ≤
          ⌈clamp (Binary64.drain i s.m_angleDiff) (-(3 / 16)) (3 / 16) * 160000⌉ := by
  refine ⟨_, b64_fill_spec host s buffer numToRead outputCount hpos hlen, rfl, rfl, ?_⟩
  intro i hi
  have hb : |clamp (Binary64.drain i s.m_angleDiff) (-(3 / 16)) (3 / 16)| ≤ 3 / 16 := by
    have h := abs_clamp_le (Binary64.drain i s.m_angleDiff)
    rwa [kMax_eq] at h
  refine ⟨by rw [b64_drain_succ, kMax_eq], ?_, (count_between _ hb).1, (count_between _ hb).2⟩
  simp only [List.append_assoc]
  have hget : ((Binary64.steps (numToRead / 4).toNat s.m_angleDiff).map
      Binary64.packetWord)[i]? =
      some (Binary64.packetWord (clamp (Binary64.drain i s.m_angleDiff)
        (-kMaxAngleDeltaPerMessage) kMaxAngleDeltaPerMessage)) := by
    rw [List.getElem?_map, b64_steps_get _ _ i hi]
    rfl
  rw [wireBytes_slice _ _ i _ hget, kMax_eq, b64_packetWord_eq _ hb]

/-- Witness of C4: a pending delta of `1.0` and `numToRead = 24`. -/
theorem packet_encoding_witness :
    (0 : Int) < 24 ∧ (24 : Int) ≤ (List.replicate 24 0).length ∧
    ∃ r, Binary64.HandleAutoReceiveData ByteOrder.little
        { m_angle := 1, m_angleDiff := 1, m_angleCallbacks := [] } (List.replicate 24 0) 24 0 =
      some r ∧
      Binary64.drain 0 1 = 1 ∧
      r.state.m_angleDiff = Binary64.drain ((24 : Int) / 4).toNat 1 ∧
      ∀ i : Nat, i < ((24 : Int) / 4).toNat →
        Binary64.drain (i + 1) 1 =
          roundDouble (Binary64.drain i 1 - clamp (Binary64.drain i 1) (-(3 / 16)) (3 / 16)) ∧
        (r.buffer.drop (4 * i)).take 4 =
          beBytes (wordOfCount (truncate (roundDouble
            (clamp (Binary64.drain i 1) (-(3 / 16)) (3 / 16) * 160000)))) ∧
        ⌊clamp (Binary64.drain i 1) (-(3 / 16)) (3 / 16) * 160000⌋ ≤
          truncate (roundDouble (clamp (Binary64.drain i 1) (-(3 / 16)) (3 / 16) * 160000)) ∧
        truncate (roundDouble (clamp (Binary64.drain i 1) (-(3 / 16)) (3 / 16) * 160000)) ≤
          ⌈clamp (Binary64.drain i 1) (-(3 / 16)) (3 / 16) * 160000⌉ :=
  ⟨by decide, by decide,
    packet_encoding ByteOrder.little { m_angle := 1, m_angleDiff := 1, m_angleCallbacks := [] }
      (List.replicate 24 0) 24 0 (by decide) (by decide)⟩

/-! ## Where the double subtraction is exact -/

theorem abs_sub_clamp_le (d : ℚ) :
    |d - clamp d (-kMaxAngleDeltaPerMessage) kMaxAngleDeltaPerMessage| ≤ |d| := by
  rw [clamp_eq]
  split_ifs with h1 h2
  · rw [abs_of_pos (by linarith), abs_of_pos (by linarith)]
    linarith
  · rw [abs_of_neg (by linarith), abs_of_neg (by linarith)]
    linarith
  · rw [sub_self, abs_zero]
    exact abs_nonneg d

theorem step_exact (d : ℚ) (h : isDouble d) (hr : |d| ≤ 2 ^ 49) :
    isDouble (d - clamp d (-kMaxAngleDeltaPerMessage) kMaxAngleDeltaPerMessage) := by
  rw [abs_le] at hr
  rw [clamp_eq]
  split_ifs with h1 h2
  · exact isDouble_sub_step d h h1 hr.2
  · have h3 := isDouble_neg _ (isDouble_sub_step (-d) (isDouble_neg d h) (by linarith)
      (by linarith))
    have h4 : -(-d - 3 / 16) = d - -(3 / 16) := by ring
    rwa [h4] at h3
  · rw [sub_self]
    exact isDouble_zero

theorem b64_exact (k : Nat) (d : ℚ) (h : isDouble d) (hr : |d| ≤ 2 ^ 49) :
    Binary64.steps k d = steps k d ∧ Binary64.drain k d = drain k d ∧
      isDouble (drain k d) ∧ |drain k d| ≤ 2 ^ 49 := by
  induction k generalizing d with
  | zero => exact ⟨rfl, rfl, h, hr⟩
  | succ k ih =>
    have hd := step_exact d h hr
    have hle := le_trans (abs_sub_clamp_le d) hr
    obtain ⟨i1, i2, i3, i4⟩ := ih _ hd hle
    simp only [Binary64.steps, Binary64.drain, steps, drain, roundDouble_of_isDouble _ hd]
    exact ⟨by rw [i1], i2, i3, i4⟩

theorem b64_fill_state (host : ByteOrder) (s : Gyro) (buffer : List Nat)
    (numToRead outputCount : Int) (hd : isDouble s.m_angleDiff) (hr : |s.m_angleDiff| ≤ 2 ^ 49)
    (hpos : 0 < numToRead) (hlen : numToRead ≤ buffer.length) :
    ∃ r, Binary64.HandleAutoReceiveData host s buffer numToRead outputCount = some r ∧
      r.state = { s with m_angleDiff := drain (numToRead / 4).toNat s.m_angleDiff } ∧
      packets (numToRead / 4).toNat r.buffer =
        (steps (numToRead / 4).toNat s.m_angleDiff).map Binary64.packetWord := by
  obtain ⟨h1, h2, _, _⟩ := b64_exact (numToRead / 4).toNat s.m_angleDiff hd hr
  refine ⟨_, b64_fill_spec host s buffer numToRead outputCount hpos hlen, ?_, ?_⟩
  · simp only [h2]
  · simp only [List.append_assoc]
    rw [b64_packets_steps, h1]

theorem b64_runOps_fill (host : ByteOrder) (ops : List Op) :
    ∀ s : Gyro, isDouble s.m_angleDiff → |s.m_angleDiff| ≤ 2 ^ 49 →
      (∀ op ∈ ops, op.isFill) → Binary64.runOps host ops s = runOps host ops s := by
  induction ops with
  | nil =>
    intro s _ _ _
    rfl
  | cons op ops ih =>
    intro s hd hr h
    have hop := h op (List.mem_cons_self _ _)
    cases op with
    | autoReceive buffer numToRead outputCount =>
      obtain ⟨h4, hlen⟩ := hop
      obtain ⟨_, h2, h3, h5⟩ := b64_exact (numToRead / 4).toNat s.m_angleDiff hd hr
      simp only [Binary64.runOps, runOps, Binary64.apply, Op.apply,
        b64_fill_spec host s buffer numToRead outputCount (by omega) hlen,
        fill_spec host s buffer numToRead outputCount (by omega) hlen, Option.map_some', h2]
      exact ih _ h3 h5 (fun o ho => h o (List.mem_cons_of_mem _ ho))
    | statusRead _ _ => exact hop.elim
    | registerAngle _ _ _ => exact hop.elim
    | cancelAngle _ => exact hop.elim
    | setAngle _ => exact hop.elim
    | resetData => exact hop.elim

/-- C6 (as amended): for every pending delta `d` that is a double with `|d| <= 2 ^ 49` (where
subtracting `0.1875` is exact), a fill call in double arithmetic (`numToRead > 0`,
`slots = numToRead / 4`, buffer of at least `numToRead` bytes) leaves
`pendingDelta = sign(d) * max(|d| - slots * 0.1875, 0)`; the new pending delta is zero or has
the sign of `d`, and its magnitude is at most `|d|`; and there is a number of calls after
which every sequence of fill calls with at least one slot each has brought the pending delta
to exactly 0, however long the sequence goes on. -/
theorem fill_no_overshoot (host : ByteOrder) (s : Gyro) (buffer : List Nat)
    (numToRead outputCount : Int) (hd : isDouble s.m_angleDiff) (hr : |s.m_angleDiff| ≤ 2 ^ 49)
    (hpos : 0 < numToRead) (hlen : numToRead ≤ buffer.length) :
    ∃ r, Binary64.HandleAutoReceiveData host s buffer numToRead outputCount = some r ∧
      r.state.m_angleDiff =
        sgn s.m_angleDiff * max (|s.m_angleDiff| - ((numToRead / 4 : Int) : ℚ) * (3 / 16)) 0 ∧
      (r.state.m_angleDiff = 0 ∨ sgn r.state.m_angleDiff = sgn s.m_angleDiff) ∧
      |r.state.m_angleDiff| ≤ |s.m_angleDiff| ∧
      ∃ N : Nat, ∀ ops : List Op, (∀ op ∈ ops, op.isFill) → N ≤ ops.length →
        ∃ s1, Binary64.runOps host ops s = some s1 ∧ s1.m_angleDiff = 0 := by
  have hform : drain (numToRead / 4).toNat s.m_angleDiff =
      sgn s.m_angleDiff * max (|s.m_angleDiff| - ((numToRead / 4 : Int) : ℚ) * (3 / 16)) 0 := by
    rw [drain_closed, toNat_div_cast numToRead hpos.le]
  have hm : (0 : ℚ) ≤ max (|s.m_angleDiff| - ((numToRead / 4 : Int) : ℚ) * (3 / 16)) 0 :=
    le_max_right _ _
  obtain ⟨r, hcall, hstate, _⟩ :=
    b64_fill_state host s buffer numToRead outputCount hd hr hpos hlen
  have hdiff : r.state.m_angleDiff = drain (numToRead / 4).toNat s.m_angleDiff := by
    rw [hstate]
  refine ⟨r, hcall, by rw [hdiff, hform], ?_, ?_,
    ⌈|s.m_angleDiff| / (3 / 16)⌉.toNat, fun ops h hN => ?_⟩
  · rw [hdiff, hform]
    rcases hm.lt_or_eq with hm1 | hm1
    · right
      rcases lt_trichotomy s.m_angleDiff 0 with h0 | h0 | h0
      · rw [sgn_of_neg h0]
        exact sgn_of_neg (by linarith)
      · rw [h0]
        simp [sgn]
      · rw [sgn_of_pos h0]
        exact sgn_of_pos (by linarith)
    · left
      rw [← hm1, mul_zero]
  · rw [hdiff, abs_drain]
    have hk : (0 : ℚ) ≤ ((numToRead / 4).toNat : Nat) := Nat.cast_nonneg _
    exact max_le (by nlinarith) (abs_nonneg _)
  · rw [b64_runOps_fill host ops s hd hr h]
    exact fill_ops_drained host s ops h hN

/-- Witness of C6: a pending delta of `-1` and `numToRead = 9`. -/
theorem fill_no_overshoot_witness :
    isDouble (-1) ∧ |(-1 : ℚ)| ≤ 2 ^ 49 ∧
    (0 : Int) < 9 ∧ (9 : Int) ≤ (List.replicate 9 0).length ∧
    ∃ r, Binary64.HandleAutoReceiveData ByteOrder.little
        { m_angle := 0, m_angleDiff := -1, m_angleCallbacks := [] } (List.replicate 9 0) 9 0 =
      some r ∧
      r.state.m_angleDiff = sgn (-1) * max (|(-1 : ℚ)| - (((9 : Int) / 4 : Int) : ℚ) * (3 / 16)) 0 ∧
      (r.state.m_angleDiff = 0 ∨ sgn r.state.m_angleDiff = sgn (-1)) ∧
      |r.state.m_angleDiff| ≤ |(-1 : ℚ)| ∧
      ∃ N : Nat, ∀ ops : List Op, (∀ op ∈ ops, op.isFill) → N ≤ ops.length →
        ∃ s1, Binary64.runOps ByteOrder.little ops
          { m_angle := 0, m_angleDiff := -1, m_angleCallbacks := [] } = some s1 ∧
          s1.m_angleDiff = 0 :=
  have h1 : isDouble (-1) := ⟨-1, 0, by norm_num, by norm_num⟩
  have h2 : |(-1 : ℚ)| ≤ 2 ^ 49 := by norm_num
  ⟨h1, h2, by decide, by decide,
    fill_no_overshoot ByteOrder.little { m_angle := 0, m_angleDiff := -1, m_angleCallbacks := [] }
      (List.replicate 9 0) 9 0 h1 h2 (by decide) (by decide)⟩

theorem round_stuck : roundDouble (2 ^ 53 - 3 / 16) = 2 ^ 53 := by
  have hf : ⌊((2 : ℚ) ^ 53 - 3 / 16) / 2 ^ ((52 : Int) - 52)⌋ = 9007199254740991 := by
    rw [Int.floor_eq_iff]
    norm_num
  rw [roundDouble_eval _ 52 (by norm_num [abs_of_pos]) (by norm_num [abs_of_pos])]
  unfold roundEven
  rw [hf]
  norm_num

theorem drain_fixed (d : ℚ)
    (h : roundDouble (d - clamp d (-kMaxAngleDeltaPerMessage) kMaxAngleDeltaPerMessage) = d)
    (k : Nat) : Binary64.drain k d = d := by
  induction k with
  | zero => rfl
  | succ k ih =>
    show Binary64.drain k (roundDouble
      (d - clamp d (-kMaxAngleDeltaPerMessage) kMaxAngleDeltaPerMessage)) = d
    rw [h, ih]

theorem drain_stuck (k : Nat) : Binary64.drain k (2 ^ 53) = 2 ^ 53 := by
  have hc : clamp (2 ^ 53) (-kMaxAngleDeltaPerMessage) kMaxAngleDeltaPerMessage = 3 / 16 := by
    rw [clamp_eq]
    norm_num
  exact drain_fixed _ (by rw [hc, round_stuck]) k

/-- Counterexample to C6 as stated: with a pending delta of `2 ^ 53` the difference
`2 ^ 53 - 0.1875` rounds back to `2 ^ 53`, so every fill call leaves the pending delta at
`2 ^ 53` (for one slot the closed form is `2 ^ 53 - 0.1875`), and no sequence of fill calls
brings it to 0. -/
theorem fill_stuck :
    (∀ (buffer : List Nat) (numToRead outputCount : Int), 0 < numToRead →
      numToRead ≤ buffer.length →
      ∃ r, Binary64.HandleAutoReceiveData ByteOrder.little
          { m_angle := 2 ^ 53, m_angleDiff := 2 ^ 53, m_angleCallbacks := [] } buffer
          numToRead outputCount = some r ∧ r.state.m_angleDiff = 2 ^ 53) ∧
    sgn (2 ^ 53) * max (|(2 : ℚ) ^ 53| - (((4 : Int) / 4 : Int) : ℚ) * (3 / 16)) 0 ≠ 2 ^ 53 ∧
    ∀ ops : List Op, (∀ op ∈ ops, op.isFill) →
      ∃ s1, Binary64.runOps ByteOrder.little ops
          { m_angle := 2 ^ 53, m_angleDiff := 2 ^ 53, m_angleCallbacks := [] } = some s1 ∧
        s1.m_angleDiff = 2 ^ 53 := by
  refine ⟨?_, ?_, ?_⟩
  · intro buffer numToRead outputCount hpos hlen
    exact ⟨_, b64_fill_spec _ _ buffer numToRead outputCount hpos hlen, drain_stuck _⟩
  · rw [sgn_of_pos (by norm_num)]
    norm_num
  · intro ops
    induction ops with
    | nil =>
      intro _
      exact ⟨_, rfl, rfl⟩
    | cons op ops ih =>
      intro h
      have hop := h op (List.mem_cons_self _ _)
      cases op with
      | autoReceive buffer numToRead outputCount =>
        obtain ⟨h4, hlen⟩ := hop
        obtain ⟨s1, h1, h2⟩ := ih (fun o ho => h o (List.mem_cons_of_mem _ ho))
        refine ⟨s1, ?_, h2⟩
        simp only [Binary64.runOps, Binary64.apply,
          b64_fill_spec _ _ buffer numToRead outputCount (by omega) hlen, Option.map_some',
          drain_stuck]
        exact h1
      | statusRead _ _ => exact hop.elim
      | registerAngle _ _ _ => exact hop.elim
      | cancelAngle _ => exact hop.elim
      | setAngle _ => exact hop.elim
      | resetData => exact hop.elim

/-! ## The commanded change in double arithmetic -/

theorem b64_setAngle_angle (s : Gyro) (x : ℚ) : (Binary64.SetAngle s x).1.m_angle = x := by
  unfold Binary64.SetAngle
  split_ifs with h
  · rfl
  · exact not_not.mp h

theorem b64_setAngle_diff (s : Gyro) (x : ℚ) (hp : isDouble s.m_angleDiff) :
    (Binary64.SetAngle s x).1.m_angleDiff =
      roundDouble (s.m_angleDiff + roundDouble (x - s.m_angle)) := by
  unfold Binary64.SetAngle
  split_ifs with h
  · rfl
  · rw [not_not.mp h, sub_self, roundDouble_zero, add_zero, roundDouble_of_isDouble _ hp]

theorem b64_setAngle_exact (s : Gyro) (x : ℚ) (hp : isDouble s.m_angleDiff)
    (h1 : isDouble (x - s.m_angle)) (h2 : isDouble (s.m_angleDiff + (x - s.m_angle))) :
    (Binary64.SetAngle s x).1.m_angleDiff = s.m_angleDiff + (x - s.m_angle) := by
  rw [b64_setAngle_diff s x hp, roundDouble_of_isDouble _ h1, roundDouble_of_isDouble _ h2]

/-- C9 (as amended): for every state with angle `a` and pending delta `p` (a double) and
every `x`, after `SetAngle(x)` the angle is `x` and the pending delta is the double sum of `p`
and the double difference `x - a`, which is `p + (x - a)` when neither operation rounds; and
`SetAngle(x)` followed by `SetAngle(y)` leaves the pending delta that `SetAngle(y)` alone
leaves when `x - a`, `p + (x - a)`, `y - x` and `y - a` are doubles. -/
theorem setAngle_accumulates (s : Gyro) (x : ℚ) (hp : isDouble s.m_angleDiff) :
    (Binary64.SetAngle s x).1.m_angle = x ∧
    (Binary64.SetAngle s x).1.m_angleDiff =
      roundDouble (s.m_angleDiff + roundDouble (x - s.m_angle)) ∧
    (isDouble (x - s.m_angle) → isDouble (s.m_angleDiff + (x - s.m_angle)) →
      (Binary64.SetAngle s x).1.m_angleDiff = s.m_angleDiff + (x - s.m_angle)) ∧
    ∀ y : ℚ, isDouble (x - s.m_angle) → isDouble (s.m_angleDiff + (x - s.m_angle)) →
      isDouble (y - x) → isDouble (y - s.m_angle) →
      (Binary64.SetAngle (Binary64.SetAngle s x).1 y).1.m_angleDiff =
        (Binary64.SetAngle s y).1.m_angleDiff := by
  refine ⟨b64_setAngle_angle s x, b64_setAngle_diff s x hp, b64_setAngle_exact s x hp, ?_⟩
  intro y h1 h2 h3 h4
  have hd := b64_setAngle_exact s x hp h1 h2
  have hp1 : isDouble (Binary64.SetAngle s x).1.m_angleDiff := by
    rw [hd]
    exact h2
  rw [b64_setAngle_diff _ y hp1, b64_setAngle_diff s y hp, hd, b64_setAngle_angle,
    roundDouble_of_isDouble _ h3, roundDouble_of_isDouble _ h4]
  congr 1
  ring

/-- Witness of C9: from angle 2 with pending delta 1, `SetAngle(5)` and then `SetAngle(3)`. -/
theorem setAngle_accumulates_witness :
    isDouble threeSubscribers.m_angleDiff ∧
    (Binary64.SetAngle threeSubscribers 5).1.m_angle = 5 ∧
    (Binary64.SetAngle threeSubscribers 5).1.m_angleDiff = 4 ∧
    (Binary64.SetAngle (Binary64.SetAngle threeSubscribers 5).1 3).1.m_angleDiff =
      (Binary64.SetAngle threeSubscribers 3).1.m_angleDiff := by
  have hp : isDouble threeSubscribers.m_angleDiff := ⟨1, 0, by norm_num, by
    simp only [threeSubscribers]
    norm_num⟩
  have hi : ∀ n : Int, |n| < 2 ^ 53 → ∀ q : ℚ, q = n → isDouble q := by
    intro n hn q hq
    rw [hq]
    exact isDouble_intCast n hn
  have h1 : isDouble (5 - threeSubscribers.m_angle) :=
    hi 3 (by norm_num) _ (by simp only [threeSubscribers]; norm_num)
  have h2 : isDouble (threeSubscribers.m_angleDiff + (5 - threeSubscribers.m_angle)) :=
    hi 4 (by norm_num) _ (by simp only [threeSubscribers]; norm_num)
  have h3 : isDouble ((3 : ℚ) - 5) := hi (-2) (by norm_num) _ (by norm_num)
  have h4 : isDouble (3 - threeSubscribers.m_angle) :=
    hi 1 (by norm_num) _ (by simp only [threeSubscribers]; norm_num)
  obtain ⟨k1, _, k3, k4⟩ := setAngle_accumulates threeSubscribers 5 hp
  refine ⟨hp, k1, ?_, k4 3 h1 h2 h3 h4⟩
  rw [k3 h1 h2]
  simp only [threeSubscribers]
  norm_num

theorem round_cancel : roundDouble (1 - 10 ^ 16) = -10 ^ 16 := by
  have hf : ⌊((1 : ℚ) - 10 ^ 16) / 2 ^ ((53 : Int) - 52)⌋ = -5000000000000000 := by
    rw [Int.floor_eq_iff]
    norm_num
  rw [roundDouble_eval _ 53 (by norm_num [abs_of_neg]) (by norm_num [abs_of_neg])]
  unfold roundEven
  rw [hf]
  norm_num

/-- Counterexample to C9 as stated: on a fresh object, `SetAngle(1e16)` followed by
`SetAngle(1.0)` leaves the pending delta `0.0` (the difference `1 - 1e16` rounds to `-1e16`),
not `p + (x - a) = 1`, while `SetAngle(1.0)` alone leaves `1.0`. -/
theorem setAngle_rounds :
    (Binary64.SetAngle { m_angle := 0, m_angleDiff := 0, m_angleCallbacks := [] }
      (10 ^ 16)).1 = { m_angle := 10 ^ 16, m_angleDiff := 10 ^ 16, m_angleCallbacks := [] } ∧
    (Binary64.SetAngle { m_angle := 10 ^ 16, m_angleDiff := 10 ^ 16, m_angleCallbacks := [] }
      1).1.m_angleDiff = 0 ∧
    (10 : ℚ) ^ 16 + (1 - 10 ^ 16) = 1 ∧
    (Binary64.SetAngle { m_angle := 0, m_angleDiff := 0, m_angleCallbacks := [] }
      1).1.m_angleDiff = 1 := by
  have hbig : isDouble (10 ^ 16) := ⟨152587890625, 16, by norm_num, by norm_num⟩
  have hone : isDouble 1 := ⟨1, 0, by norm_num, by norm_num⟩
  refine ⟨?_, ?_, by norm_num, ?_⟩
  · have hne : (0 : ℚ) ≠ 10 ^ 16 := by norm_num
    simp only [Binary64.SetAngle, if_pos hne, sub_zero, zero_add,
      roundDouble_of_isDouble _ hbig]
  · have hne : (10 : ℚ) ^ 16 ≠ 1 := by norm_num
    simp only [Binary64.SetAngle, if_pos hne, round_cancel]
    rw [show (10 : ℚ) ^ 16 + -10 ^ 16 = 0 by ring, roundDouble_zero]
  · have hne : (0 : ℚ) ≠ 1 := by norm_num
    simp only [Binary64.SetAngle, if_pos hne, sub_zero, zero_add,
      roundDouble_of_isDouble _ hone]

/-! ## Decoded packets in double arithmetic -/

theorem b64_decodeDelta (step : ℚ) (h : |step| ≤ 3 / 16) :
    decodeDelta (Binary64.packetWord step) =
      (truncate (roundDouble (step * 160000)) : ℚ) / 160000 := by
  unfold decodeDelta
  rw [b64_packetCount_packetWord step h, kAngleLsb_eq]

theorem b64_decoded_steps (k : Nat) (d : ℚ) :
    ((steps k d).map Binary64.packetWord).map decodeDelta =
      (steps k d).map (fun step => (truncate (roundDouble (step * 160000)) : ℚ) / 160000) := by
  rw [List.map_map]
  apply List.map_congr_left
  intro step hstep
  exact b64_decodeDelta step (steps_bound k d step hstep)

theorem count_of_integral (x : ℚ) (z : Int) (hz : x = z) (hb : |x| < 2 ^ 53) :
    truncate (roundDouble x) = z := by
  have hzb : |z| < 2 ^ 53 := by
    rw [hz] at hb
    exact_mod_cast hb
  rw [hz, roundDouble_of_isDouble _ (isDouble_intCast z hzb), truncate_intCast]

theorem b64_decoded_sum_of_integral (k : Nat) (d : ℚ) (h : ∃ z : Int, d * 160000 = z) :
    ((steps k d).map
        (fun step => (truncate (roundDouble (step * 160000)) : ℚ) / 160000)).sum =
      d - drain k d := by
  have hmap : (steps k d).map
      (fun step => (truncate (roundDouble (step * 160000)) : ℚ) / 160000) =
      (steps k d).map id := by
    apply List.map_congr_left
    intro step hs
    obtain ⟨z, hz⟩ := steps_integral k d h step hs
    obtain ⟨_, _, hb⟩ := product_bounds step (steps_bound k d step hs)
    rw [count_of_integral _ z hz hb, ← hz]
    simp only [id]
    field_simp
  rw [hmap, List.map_id, steps_sum]

theorem count_full (d : ℚ) :
    (truncate (roundDouble (sgn d * (3 / 16) * 160000)) : ℚ) / 160000 = sgn d * (3 / 16) := by
  have hs : ∃ z : Int, |z| ≤ 1 ∧ sgn d = z := by
    unfold sgn
    split_ifs
    · exact ⟨1, by norm_num, by norm_num⟩
    · exact ⟨-1, by norm_num, by norm_num⟩
    · exact ⟨0, by norm_num, by norm_num⟩
  obtain ⟨z, hz1, hz⟩ := hs
  have hx : sgn d * (3 / 16) * 160000 = ((z * 30000 : Int) : ℚ) := by
    rw [hz]
    push_cast
    ring
  have hzb : |z * 30000| < 2 ^ 53 := by
    rw [abs_le] at hz1
    rw [abs_lt]
    constructor <;> omega
  rw [hx, roundDouble_of_isDouble _ (isDouble_intCast _ hzb), truncate_intCast, hz]
  push_cast
  ring

theorem step_loss (step : ℚ) (h : |step| ≤ 3 / 16) :
    |step - (truncate (roundDouble (step * 160000)) : ℚ) / 160000| < 1 / 160000 ∧
    (0 ≤ step → (0 : ℚ) ≤ (truncate (roundDouble (step * 160000)) : ℚ) / 160000) ∧
    (step ≤ 0 → (truncate (roundDouble (step * 160000)) : ℚ) / 160000 ≤ 0) := by
  obtain ⟨c1, c2⟩ := count_between step h
  have h1 : ((⌊step * 160000⌋ : Int) : ℚ) ≤ (truncate (roundDouble (step * 160000)) : ℚ) := by
    exact_mod_cast c1
  have h2 : (truncate (roundDouble (step * 160000)) : ℚ) ≤ ((⌈step * 160000⌉ : Int) : ℚ) := by
    exact_mod_cast c2
  have h3 := Int.sub_one_lt_floor (step * 160000)
  have h4 := Int.ceil_lt_add_one (step * 160000)
  refine ⟨?_, ?_, ?_⟩
  · have hg : (truncate (roundDouble (step * 160000)) : ℚ) =
        (truncate (roundDouble (step * 160000)) : ℚ) / 160000 * 160000 := by
      field_simp
    rw [hg] at h1 h2
    rw [abs_lt]
    constructor <;> linarith
  · intro h0
    have hf : (0 : Int) ≤ ⌊step * 160000⌋ := Int.floor_nonneg.mpr (by positivity)
    have : (0 : ℚ) ≤ (truncate (roundDouble (step * 160000)) : ℚ) := by
      exact_mod_cast le_trans hf c1
    positivity
  · intro h0
    have hx : step * 160000 ≤ ((0 : Int) : ℚ) := by
      push_cast
      nlinarith
    have hcl : ⌈step * 160000⌉ ≤ 0 := Int.ceil_le.mpr hx
    have : (truncate (roundDouble (step * 160000)) : ℚ) ≤ 0 := by
      exact_mod_cast le_trans c2 hcl
    exact div_nonpos_of_nonpos_of_nonneg this (by norm_num)

theorem count_zero : (truncate (roundDouble ((0 : ℚ) * 160000)) : ℚ) / 160000 = 0 := by
  rw [zero_mul, roundDouble_zero, show (0 : ℚ) = ((0 : Int) : ℚ) from rfl, truncate_intCast]
  simp

theorem b64_loss (k : Nat) (d : ℚ) :
    |(steps k d).sum - ((steps k d).map
        (fun step => (truncate (roundDouble (step * 160000)) : ℚ) / 160000)).sum| <
      1 / 160000 ∧
    (0 ≤ d → 0 ≤ ((steps k d).map
        (fun step => (truncate (roundDouble (step * 160000)) : ℚ) / 160000)).sum ∧
      0 ≤ (steps k d).sum) ∧
    (d ≤ 0 → ((steps k d).map
        (fun step => (truncate (roundDouble (step * 160000)) : ℚ) / 160000)).sum ≤ 0 ∧
      (steps k d).sum ≤ 0) := by
  induction k generalizing d with
  | zero => simp [steps]
  | succ k ih =>
    simp only [steps, List.map_cons, List.sum_cons, clamp_eq]
    by_cases h1 : 3 / 16 < d
    · rw [if_pos h1]
      obtain ⟨i1, i2, _⟩ := ih (d - 3 / 16)
      obtain ⟨j1, j2⟩ := i2 (by linarith)
      have hfull := count_full 1
      rw [sgn_of_pos (by norm_num), one_mul] at hfull
      rw [hfull]
      refine ⟨?_, fun _ => ⟨by linarith, by linarith⟩, fun h => absurd h (by linarith)⟩
      rw [show 3 / 16 + (steps k (d - 3 / 16)).sum - (3 / 16 + ((steps k (d - 3 / 16)).map
          (fun step => (truncate (roundDouble (step * 160000)) : ℚ) / 160000)).sum) =
        (steps k (d - 3 / 16)).sum - ((steps k (d - 3 / 16)).map
          (fun step => (truncate (roundDouble (step * 160000)) : ℚ) / 160000)).sum by ring]
      exact i1
    · rw [if_neg h1]
      by_cases h2 : d < -(3 / 16)
      · rw [if_pos h2]
        obtain ⟨i1, _, i3⟩ := ih (d - -(3 / 16))
        obtain ⟨j1, j2⟩ := i3 (by linarith)
        have hfull := count_full (-1)
        rw [sgn_of_neg (by norm_num), neg_one_mul] at hfull
        rw [hfull]
        refine ⟨?_, fun h => absurd h (by linarith), fun _ => ⟨by linarith, by linarith⟩⟩
        rw [show -(3 / 16) + (steps k (d - -(3 / 16))).sum -
            (-(3 / 16) + ((steps k (d - -(3 / 16))).map
              (fun step => (truncate (roundDouble (step * 160000)) : ℚ) / 160000)).sum) =
          (steps k (d - -(3 / 16))).sum - ((steps k (d - -(3 / 16))).map
            (fun step => (truncate (roundDouble (step * 160000)) : ℚ) / 160000)).sum by ring]
        exact i1
      · rw [if_neg h2, sub_self, steps_zero]
        simp only [List.map_replicate, count_zero, List.sum_replicate, smul_zero, add_zero]
        have hb : |d| ≤ 3 / 16 := by
          rw [abs_le]
          constructor <;> linarith
        obtain ⟨l1, l2, l3⟩ := step_loss d hb
        exact ⟨l1, fun h => ⟨l2 h, h⟩, fun h => ⟨l3 h, h⟩⟩

theorem tiny_drained (host : ByteOrder) :
    ∃ r, Binary64.HandleAutoReceiveData host
        { m_angle := 0, m_angleDiff := 1 / 1048576, m_angleCallbacks := [] } [0, 0, 0, 0] 4 0 =
      some r ∧
      r.state.m_angleDiff = 0 ∧ ∀ w ∈ packets 1 r.buffer, packetCount w = 0 := by
  have hd : isDouble (1 / 1048576) := ⟨1, -20, by norm_num, by norm_num⟩
  obtain ⟨r, hcall, hstate, hpk⟩ := b64_fill_state host
    { m_angle := 0, m_angleDiff := 1 / 1048576, m_angleCallbacks := [] } [0, 0, 0, 0] 4 0
    hd (by norm_num [abs_of_pos]) (by decide) (by decide)
  have h1 : ((4 : Int) / 4).toNat = 1 := by decide
  rw [h1] at hstate hpk
  dsimp only at hstate hpk
  refine ⟨r, hcall, ?_, ?_⟩
  · rw [hstate]
    exact (drain_eq_zero_iff 1 _).mpr (by norm_num [abs_of_pos])
  · intro w hw
    rw [hpk, steps_last _ (by norm_num) (by norm_num)] at hw
    simp only [List.map_cons, List.map_nil, List.mem_singleton] at hw
    rw [hw, b64_packetCount_packetWord _ (by norm_num [abs_of_pos]),
      roundDouble_of_isDouble _ ⟨625, -12, by norm_num, by norm_num⟩]
    exact truncate_of_small _ (by norm_num [abs_of_pos])

/-- C19 (as amended): for every pending delta `d` that is a double with `|d| <= 2 ^ 49`, in a
fill call in double arithmetic on a buffer of at least `numToRead` bytes, the count carried
by a packet is the double product `step * 160000` with its fraction discarded, an integer
between the floor and the ceiling of the exact product; the sum of the decoded deltas of the
packets is never of the sign opposite to the amount subtracted from the pending delta and
differs from it by less than `1 / 160000` (it can exceed it in magnitude); the two are equal
when `d` is an integer multiple of `1 / 160000`; and for `d = 2 ^ -20`, which is below
`1 / 160000`, the pending delta is drained to 0 while the packet carries the count 0. -/
theorem reporting_loss (host : ByteOrder) (s : Gyro) (buffer : List Nat)
    (numToRead outputCount : Int) (hd : isDouble s.m_angleDiff) (hr : |s.m_angleDiff| ≤ 2 ^ 49)
    (hpos : 0 < numToRead) (hlen : numToRead ≤ buffer.length) :
    ∃ r, Binary64.HandleAutoReceiveData host s buffer numToRead outputCount = some r ∧
      packets (numToRead / 4).toNat r.buffer =
        (steps (numToRead / 4).toNat s.m_angleDiff).map Binary64.packetWord ∧
      (∀ step ∈ steps (numToRead / 4).toNat s.m_angleDiff,
        packetCount (Binary64.packetWord step) = truncate (roundDouble (step * 160000)) ∧
        ⌊step * 160000⌋ ≤ packetCount (Binary64.packetWord step) ∧
        packetCount (Binary64.packetWord step) ≤ ⌈step * 160000⌉) ∧
      ((0 ≤ s.m_angleDiff - r.state.m_angleDiff ∧
          0 ≤ ((packets (numToRead / 4).toNat r.buffer).map decodeDelta).sum) ∨
        (s.m_angleDiff - r.state.m_angleDiff ≤ 0 ∧
          ((packets (numToRead / 4).toNat r.buffer).map decodeDelta).sum ≤ 0)) ∧
      |s.m_angleDiff - r.state.m_angleDiff -
        ((packets (numToRead / 4).toNat r.buffer).map decodeDelta).sum| < 1 / 160000 ∧
      ((∃ z : Int, s.m_angleDiff * 160000 = z) →
        ((packets (numToRead / 4).toNat r.buffer).map decodeDelta).sum =
          s.m_angleDiff - r.state.m_angleDiff) ∧
      (0 < |(1 / 1048576 : ℚ)| ∧ |(1 / 1048576 : ℚ)| < 1 / 160000 ∧
        ∃ r0, Binary64.HandleAutoReceiveData host
            { m_angle := 0, m_angleDiff := 1 / 1048576, m_angleCallbacks := [] }
            [0, 0, 0, 0] 4 0 = some r0 ∧
          r0.state.m_angleDiff = 0 ∧ ∀ w ∈ packets 1 r0.buffer, packetCount w = 0) := by
  obtain ⟨r, hcall, hstate, hpk⟩ :=
    b64_fill_state host s buffer numToRead outputCount hd hr hpos hlen
  have hdiff : s.m_angleDiff - r.state.m_angleDiff =
      (steps (numToRead / 4).toNat s.m_angleDiff).sum := by
    rw [hstate, steps_sum]
  obtain ⟨l1, l2, l3⟩ := b64_loss (numToRead / 4).toNat s.m_angleDiff
  refine ⟨r, hcall, hpk, ?_, ?_, ?_, ?_,
    ⟨by norm_num, by norm_num [abs_of_pos], tiny_drained host⟩⟩
  · intro step hs
    have hb := steps_bound _ _ step hs
    obtain ⟨c1, c2⟩ := count_between step hb
    rw [b64_packetCount_packetWord step hb]
    exact ⟨rfl, c1, c2⟩
  · rw [hpk, b64_decoded_steps, hdiff]
    rcases le_total 0 s.m_angleDiff with h0 | h0
    · exact Or.inl ⟨(l2 h0).2, (l2 h0).1⟩
    · exact Or.inr ⟨(l3 h0).2, (l3 h0).1⟩
  · rw [hpk, b64_decoded_steps, hdiff]
    exact l1
  · intro hz
    rw [hpk, b64_decoded_steps, hdiff, b64_decoded_sum_of_integral _ _ hz, steps_sum]

/-- Witness of C19: a pending delta of `1.0` and `numToRead = 24`: the decoded deltas sum to
the amount subtracted. -/
theorem reporting_loss_witness :
    isDouble (1 : ℚ) ∧ |(1 : ℚ)| ≤ 2 ^ 49 ∧
    (0 : Int) < 24 ∧ (24 : Int) ≤ (List.replicate 24 0).length ∧
    ∃ r, Binary64.HandleAutoReceiveData ByteOrder.little
        { m_angle := 1, m_angleDiff := 1, m_angleCallbacks := [] } (List.replicate 24 0) 24 0 =
      some r ∧
      ((packets ((24 : Int) / 4).toNat r.buffer).map decodeDelta).sum =
        1 - r.state.m_angleDiff ∧
      |1 - r.state.m_angleDiff -
        ((packets ((24 : Int) / 4).toNat r.buffer).map decodeDelta).sum| < 1 / 160000 := by
  have h1 : isDouble (1 : ℚ) := ⟨1, 0, by norm_num, by norm_num⟩
  have h2 : |(1 : ℚ)| ≤ 2 ^ 49 := by norm_num
  obtain ⟨r, hcall, _, _, _, hclose, hint, _⟩ := reporting_loss ByteOrder.little
    { m_angle := 1, m_angleDiff := 1, m_angleCallbacks := [] } (List.replicate 24 0) 24 0
    h1 h2 (by decide) (by decide)
  exact ⟨h1, h2, by decide, by decide, r, hcall, hint ⟨160000, by norm_num⟩, hclose⟩

theorem round_product :
    roundDouble ((5404319552844595 / 18014398509481984 - 3 / 16) * 160000) = 18000 := by
  have hf : ⌊((5404319552844595 / 18014398509481984 - 3 / 16 : ℚ) * 160000) /
      2 ^ ((14 : Int) - 52)⌋ = 4947802324991999 := by
    rw [Int.floor_eq_iff]
    norm_num
  rw [roundDouble_eval _ 14 (by norm_num [abs_of_pos]) (by norm_num [abs_of_pos])]
  unfold roundEven
  rw [hf]
  norm_num

/-- Counterexample to C19 as stated: with the pending delta the double `0.3`
(`5404319552844595 / 2 ^ 54`) and `numToRead = 8`, the pending delta is drained to 0 and the
two packets carry the counts 30000 and 18000, although the exact product of the second step
truncates to 17999; the decoded deltas sum to `0.3` exactly, more than the amount subtracted
from the pending delta. -/
theorem decoded_exceeds :
    ∃ r, Binary64.HandleAutoReceiveData ByteOrder.little
        { m_angle := 0, m_angleDiff := 5404319552844595 / 18014398509481984,
          m_angleCallbacks := [] } [0, 0, 0, 0, 0, 0, 0, 0] 8 0 = some r ∧
      r.state.m_angleDiff = 0 ∧
      (packets 2 r.buffer).map packetCount = [30000, 18000] ∧
      truncate ((5404319552844595 / 18014398509481984 - 3 / 16 : ℚ) * 160000) = 17999 ∧
      ((packets 2 r.buffer).map decodeDelta).sum = 3 / 10 ∧
      (5404319552844595 / 18014398509481984 : ℚ) - r.state.m_angleDiff <
        ((packets 2 r.buffer).map decodeDelta).sum := by
  have hd : isDouble (5404319552844595 / 18014398509481984) :=
    ⟨5404319552844595, -54, by norm_num, by norm_num⟩
  obtain ⟨r, hcall, hstate, hpk⟩ := b64_fill_state ByteOrder.little
    { m_angle := 0, m_angleDiff := 5404319552844595 / 18014398509481984,
      m_angleCallbacks := [] } [0, 0, 0, 0, 0, 0, 0, 0] 8 0
    hd (by norm_num [abs_of_pos]) (by decide) (by decide)
  have h2 : ((8 : Int) / 4).toNat = 2 := by decide
  rw [h2] at hstate hpk
  dsimp only at hstate hpk
  have hsteps : steps 2 (5404319552844595 / 18014398509481984) =
      [3 / 16, 5404319552844595 / 18014398509481984 - 3 / 16] := by
    have h := steps_add 1 1 (5404319552844595 / 18014398509481984)
    rw [steps_full 1 _ (by norm_num), drain_of_nonneg 1 _ (by norm_num),
      max_eq_left (by norm_num),
      steps_last _ (by norm_num) (by norm_num)] at h
    rw [show (2 : Nat) = 1 + 1 from rfl, h]
    norm_num
  have hdrain : drain 2 (5404319552844595 / 18014398509481984) = 0 :=
    (drain_eq_zero_iff 2 _).mpr (by norm_num [abs_of_pos])
  have hc1 : packetCount (Binary64.packetWord (3 / 16)) = 30000 := by
    rw [b64_packetCount_packetWord _ (by norm_num [abs_of_pos]),
      count_of_integral _ 30000 (by norm_num) (by norm_num [abs_of_pos])]
  have hc2 : packetCount (Binary64.packetWord
      (5404319552844595 / 18014398509481984 - 3 / 16)) = 18000 := by
    rw [b64_packetCount_packetWord _ (by norm_num [abs_of_pos]), round_product,
      show (18000 : ℚ) = ((18000 : Int) : ℚ) by norm_num, truncate_intCast]
  have hcounts : (packets 2 r.buffer).map packetCount = [30000, 18000] := by
    rw [hpk, hsteps]
    simp only [List.map_cons, List.map_nil, hc1, hc2]
  have hsum : ((packets 2 r.buffer).map decodeDelta).sum = 3 / 10 := by
    rw [hpk, hsteps]
    simp only [List.map_cons, List.map_nil, decodeDelta, hc1, hc2, kAngleLsb_eq,
      List.sum_cons, List.sum_nil]
    norm_num
  have htrunc : truncate ((5404319552844595 / 18014398509481984 - 3 / 16 : ℚ) * 160000) =
      17999 := by
    unfold truncate
    rw [if_pos (by norm_num), Int.floor_eq_iff]
    norm_num
  refine ⟨r, hcall, by rw [hstate]; exact hdrain, hcounts, htrunc, hsum, ?_⟩
  rw [hsum, hstate]
  simp only [hdrain]
  norm_num

/-! ## The scale constant in double arithmetic -/

theorem roundDouble_up (x : ℚ) (e n : Int) (h1 : (2 : ℚ) ^ e ≤ |x|)
    (h2 : |x| < (2 : ℚ) ^ (e + 1)) (hf : ⌊x / 2 ^ (e - 52)⌋ = n)
    (hfr : 1 / 2 < x / 2 ^ (e - 52) - n) :
    roundDouble x = ((n + 1 : Int) : ℚ) * 2 ^ (e - 52) := by
  rw [roundDouble_eval x e h1 h2]
  unfold roundEven
  rw [hf, if_neg (not_lt.mpr hfr.le), if_pos hfr]

theorem kAngleLsb_double :
    roundDouble (roundDouble (1 / roundDouble (125 / 10000)) / roundDouble (5 / 10000)) =
      kAngleLsb := by
  have h1 : roundDouble (125 / 10000) = 7205759403792794 / 576460752303423488 := by
    rw [roundDouble_up _ (-7) 7205759403792793 (by norm_num [abs_of_pos])
      (by norm_num [abs_of_pos]) (by rw [Int.floor_eq_iff]; norm_num) (by norm_num)]
    norm_num
  have h2 : roundDouble (1 / (7205759403792794 / 576460752303423488)) = 80 := by
    rw [roundDouble_up _ 6 5629499534213119 (by norm_num [abs_of_pos])
      (by norm_num [abs_of_pos]) (by rw [Int.floor_eq_iff]; norm_num) (by norm_num)]
    norm_num
  have h3 : roundDouble (5 / 10000) = 4611686018427388 / 9223372036854775808 := by
    rw [roundDouble_up _ (-11) 4611686018427387 (by norm_num [abs_of_pos])
      (by norm_num [abs_of_pos]) (by rw [Int.floor_eq_iff]; norm_num) (by norm_num)]
    norm_num
  have h4 : roundDouble (80 / (4611686018427388 / 9223372036854775808)) = 160000 := by
    rw [roundDouble_up _ 17 5497558138879999 (by norm_num [abs_of_pos])
      (by norm_num [abs_of_pos]) (by rw [Int.floor_eq_iff]; norm_num) (by norm_num)]
    norm_num
  rw [h1, h2, h3, h4, kAngleLsb_eq]

end ADXRS450
